import Mathlib

set_option maxRecDepth 100000

/-!
Verification of the asynchronous job loader (AsyncLoader) of this repository.

The scheduler implementation itself is not part of the visible sources (only
its unit tests are), so the definitions below are modelled from the
specification document (spec.md): jobs with fixed dependency sets and signed
declared priorities, priority inheritance along dependencies, a FIFO
priority-ordered ready queue, failure and cancellation propagation to all
transitive dependents, cycle detection at schedule time, and a bounded worker
pool.

Two embeddings are developed:
- a deterministic single-worker loader (section Loader) used for the
  priority-order scenarios, failure propagation and schedule-time claims;
- a nondeterministic small-step pool (section Pool) with interleaved starts
  and finishes, used for the concurrency, cancellation-race and status
  visibility claims.

Where the spec leaves an order unspecified (iteration over the unordered set
of dependents of a finished job), the model fixes it to reverse index order,
which reproduces the execution orders asserted by the unit tests in
src/src/Common/tests/gtest_async_loader.cpp.
-/

namespace AsyncLoader

/-- Modelled from the spec: job status, section 3 of spec.md. There is no
RUNNING constructor: a job that is being executed still has status PENDING
(spec section 3 lists exactly PENDING, OK, FAILED, CANCELED). -/
inductive LoadStatus
  | PENDING
  | OK
  | FAILED
  | CANCELED
deriving DecidableEq, Repr, Inhabited

/-- Modelled from the spec: the closed set of error kinds, section 7 of
spec.md (ASYNC_LOAD_CYCLE, ASYNC_LOAD_FAILED, ASYNC_LOAD_CANCELED in the
tests). -/
inductive ErrKind
  | CYCLE
  | FAILED
  | CANCELED
deriving DecidableEq, Repr, Inhabited

/-- Modelled from the spec: a structured error with a kind and a message. -/
structure Err where
  kind : ErrKind
  message : String
deriving DecidableEq, Repr, Inhabited

/-- Modelled from the spec: the immutable part of a job fixed at
construction (makeLoadJob): name, dependency set (as indices into the job
array), declared priority, and the observable outcome of the user function
(none = returns normally; some m = throws an exception with message m). -/
structure JobSpec where
  name : String
  deps : List Nat
  prio : Int
  fails : Option String := none
deriving DecidableEq, Repr, Inhabited

deriving instance DecidableEq for Except

/-- Substring containment on strings, used to state which messages carry
which causes. -/
def strContains (big small : String) : Prop :=
  small.toList <:+: big.toList

instance (big small : String) : Decidable (strContains big small) :=
  List.decidableInfix small.toList big.toList

/-- Modelled from the spec: the scheduler state visible to a single worker:
the static job array, per-job status, per-job stored error, per-job declared
priority (mutable via prioritize), the FIFO ready queue (job indices in
enqueue order), the execution log (name and reported priority at execution
time), and the list of executed job indices in execution order. -/
structure Loader where
  jobs : List JobSpec
  status : List LoadStatus
  err : List (Option Err)
  declPrio : List Int
  ready : List Nat
  log : List (String × Int)
  done : List Nat
deriving DecidableEq, Repr, Inhabited

def Loader.n (L : Loader) : Nat := L.jobs.length

def jobOf (L : Loader) (j : Nat) : JobSpec := L.jobs.getD j default

def nameOf (L : Loader) (j : Nat) : String := (jobOf L j).name

def depsOf (L : Loader) (j : Nat) : List Nat := (jobOf L j).deps

def statusOf (L : Loader) (j : Nat) : LoadStatus := L.status.getD j .PENDING

def errOf (L : Loader) (j : Nat) : Option Err := (L.err.getD j none)

def msgOf (L : Loader) (j : Nat) : String := ((errOf L j).getD default).message

/-- Dependents of job d: all jobs whose dependency list contains d
(the reverse edges maintained by the scheduler, spec section 3). -/
def dependentsOf (jobs : List JobSpec) (d : Nat) : List Nat :=
  (List.range jobs.length).filter (fun j => (jobs.getD j default).deps.contains d)

/-- Modelled from the spec: effective priority, section 4.4 of spec.md: the
effective priority of a job is the max of its declared priority and the
effective priorities of its immediate dependents, computed here by unfolding
the recursion a bounded number of times (the graph is acyclic, so unfolding
the number of jobs many times reaches a fixpoint). -/
def effPrioFuel (jobs : List JobSpec) (dp : List Int) : Nat → Nat → Int
  | 0, j => dp.getD j 0
  | fuel + 1, j =>
      (dependentsOf jobs j).foldl (fun acc k => max acc (effPrioFuel jobs dp fuel k))
        (dp.getD j 0)

/-- Effective priority of a job in a loader state (this is what the job
method priority() reports, per the StaticPriorities and DynamicPriorities
tests). -/
def effPrio (L : Loader) (j : Nat) : Int :=
  effPrioFuel L.jobs L.declPrio L.jobs.length j

/-- Pick from the ready queue (given in FIFO enqueue order) the first entry
with the maximal effective priority: highest effective priority wins, ties
break FIFO by enqueue order (spec section 4.4). -/
def pickBest (L : Loader) : List Nat → Option Nat
  | [] => none
  | j :: rest =>
      match pickBest L rest with
      | none => some j
      | some k => if effPrio L j < effPrio L k then some k else some j

/-- Set the status and stored error of one job and drop it from the ready
queue. -/
def setStatus (L : Loader) (j : Nat) (st : LoadStatus) (e : Option Err) : Loader :=
  { L with
    status := L.status.set j st
    err := L.err.set j e
    ready := L.ready.filter (fun k => decide (k ≠ j)) }

/-- Modelled from the spec: message stored for a FAILED job wraps the user
exception message (spec section 4.3). -/
def failMsg (name userMsg : String) : String :=
  "Load job " ++ name ++ " failed: " ++ userMsg

/-- Modelled from the spec: message stored for a job CANCELED because of some
cause; it carries the cause message (spec sections 4.5 and 4.6). -/
def cancelMsg (name cause : String) : String :=
  "Load job " ++ name ++ " canceled: " ++ cause

/-- Number of PENDING jobs, the termination measure for cancellation
propagation. -/
def pendingCount (L : Loader) : Nat :=
  L.status.countP (fun s => decide (s = LoadStatus.PENDING))

/-- First dependency of j that is FAILED or CANCELED, together with its
stored message, if any. -/
def badDep (L : Loader) (j : Nat) : Option String :=
  (depsOf L j).findSome? (fun d =>
    match statusOf L d with
    | .FAILED => some (msgOf L d)
    | .CANCELED => some (msgOf L d)
    | _ => none)

/-- One job of a propagation sweep: a PENDING job one of whose dependencies
is FAILED or CANCELED becomes CANCELED with an error of kind CANCELED whose
message carries the message stored for that dependency. -/
def cpStep (acc : Loader) (j : Nat) : Loader :=
  if statusOf acc j = .PENDING then
    match badDep acc j with
    | some cause =>
        setStatus acc j .CANCELED (some ⟨.CANCELED, cancelMsg (nameOf acc j) cause⟩)
    | none => acc
  else acc

/-- Modelled from the spec: one propagation sweep over all jobs (spec
sections 4.3 step 4 and 4.5). -/
def cancelPass (L : Loader) : Loader :=
  (List.range L.jobs.length).foldl cpStep L

/-- Modelled from the spec: cancellation propagation to all direct and
transitive dependents (spec states it as a BFS over reverse edges; the model
computes the same closure as a monotone fixpoint of sweeps). -/
def propagateCancel (L : Loader) : Loader :=
  cancelPass^[L.jobs.length + 1] L

/-- Worker post-run handling of a job that returned normally (spec section
4.3 step 3): set OK, then enqueue every dependent that became ready (all
dependencies OK); newly readied dependents are appended in reverse index
order (the iteration order of the unordered dependent set fixed by the
model). -/
def finishOk (L : Loader) (j : Nat) : Loader :=
  let L1 := setStatus L j .OK none
  { L1 with
    ready := L1.ready ++ (dependentsOf L1.jobs j).reverse.filter (fun k =>
      decide (statusOf L1 k = .PENDING) &&
      (depsOf L1 k).all (fun d => decide (statusOf L1 d = .OK)) &&
      !(L1.ready.contains k)) }

/-- Worker post-run handling of a job whose user function threw (spec
section 4.3 step 4): set FAILED with an error of kind FAILED wrapping the
user message, then propagate CANCELED to every transitive dependent. -/
def finishFailed (L : Loader) (j : Nat) (userMsg : String) : Loader :=
  propagateCancel
    (setStatus L j .FAILED (some ⟨.FAILED, failMsg (nameOf L j) userMsg⟩))

/-- Modelled from the spec: prioritize(job, p) raises the declared priority
of the job to at least p (spec section 4.4); effective priorities are
recomputed from declared ones, so backward propagation and ready-queue
repositioning are implicit. -/
def prioritizeJob (L : Loader) (j : Nat) (p : Int) : Loader :=
  { L with declPrio := L.declPrio.set j (max (L.declPrio.getD j 0) p) }

/-- Dequeue a job from the ready queue. -/
def popReady (L : Loader) (j : Nat) : Loader :=
  { L with ready := L.ready.filter (fun k => decide (k ≠ j)) }

/-- Apply the dynamic reprioritization calls a job performs while executing
(hook, as in the DynamicPriorities test). -/
def applyHook (hook : Nat → List (Nat × Int)) (L : Loader) (j : Nat) : Loader :=
  (hook j).foldl (fun acc tp => prioritizeJob acc tp.1 tp.2) L

/-- Record the execution of a job: append its name and reported (effective)
priority to the log and its index to the executed order. -/
def logExec (L : Loader) (j : Nat) : Loader :=
  { L with
    log := L.log ++ [(nameOf L j, effPrio L j)]
    done := L.done ++ [j] }

/-- The loader state after a dequeued job j was popped, performed its
reprioritization calls and was logged, right before its outcome is
recorded. -/
def stage (hook : Nat → List (Nat × Int)) (L : Loader) (j : Nat) : Loader :=
  logExec (applyHook hook (popReady L j) j) j

/-- Execute a dequeued job j (spec section 4.3 steps 2 to 4): apply its
reprioritization calls, log it, then run the worker post-run handling for
normal return or failure. -/
def execJob (hook : Nat → List (Nat × Int)) (L : Loader) (j : Nat) : Loader :=
  match (jobOf L j).fails with
  | none => finishOk (stage hook L j) j
  | some m => finishFailed (stage hook L j) j m

/-- One single-worker scheduling step (spec section 4.3): pop the
highest-priority ready job (FIFO among ties) and execute it. Returns none
when the ready queue is empty. -/
def runStep (hook : Nat → List (Nat × Int)) (L : Loader) : Option Loader :=
  match pickBest L L.ready with
  | none => none
  | some j => some (execJob hook L j)

/-- Run the single worker until the ready queue drains (fuel-bounded; the
number of jobs is enough fuel since every step retires one job). -/
def run (hook : Nat → List (Nat × Int)) : Nat → Loader → Loader
  | 0, L => L
  | fuel + 1, L =>
      match runStep hook L with
      | none => L
      | some L1 => run hook fuel L1

/-- Hook used for runs without dynamic reprioritization. -/
def noHook : Nat → List (Nat × Int) := fun _ => []

/-- Fresh loader over a job array: all jobs PENDING, no errors, declared
priorities as constructed, ready queue seeded with the jobs that have no
unresolved dependencies (all jobs are PENDING, so exactly the jobs with no
dependencies), in reverse index order (the iteration order of the unordered
batch fixed by the model). -/
def initLoader (jobs : List JobSpec) : Loader :=
  { jobs := jobs
    status := jobs.map (fun _ => .PENDING)
    err := jobs.map (fun _ => none)
    declPrio := jobs.map (fun j => j.prio)
    ready := (List.range jobs.length).reverse.filter (fun j =>
      (jobs.getD j default).deps.isEmpty)
    log := []
    done := [] }

/-- Modelled from the spec: wait(job) (spec section 4.1): on a terminal job
return normally for OK and raise the stored error for FAILED or CANCELED; a
wait on a PENDING job blocks, rendered as none. -/
def waitJob (L : Loader) (j : Nat) : Option (Except Err Unit) :=
  match statusOf L j with
  | .PENDING => none
  | .OK => some (.ok ())
  | .FAILED => some (.error ((errOf L j).getD default))
  | .CANCELED => some (.error ((errOf L j).getD default))

/-- A terminal non-OK status. -/
def Bad (s : LoadStatus) : Prop := s = .FAILED ∨ s = .CANCELED

instance (s : LoadStatus) : Decidable (Bad s) := by
  unfold Bad; infer_instance

/-- Modelled from the spec: task remove for still-pending members (spec
section 4.1): every member that is still PENDING becomes CANCELED with a
generic cancellation reason, and cancellation then propagates to
dependents. This is the per-member step. -/
def rmStepL (acc : Loader) (j : Nat) : Loader :=
  if statusOf acc j = .PENDING then
    setStatus acc j .CANCELED
      (some ⟨.CANCELED, cancelMsg (nameOf acc j) "canceled by task remove"⟩)
  else acc

/-- Cancel every still-pending member of a task. -/
def cancelMembers (L : Loader) (task : List Nat) : Loader :=
  task.foldl rmStepL L

/-- Modelled from the spec: remove on a task whose members are all not
executing (the single-worker loader between steps): cancel pending members,
then propagate. -/
def removeTaskL (L : Loader) (task : List Nat) : Loader :=
  propagateCancel (cancelMembers L task)

/-- Modelled from the spec: DFS colors for cycle detection (spec section
4.2). -/
inductive Color
  | white
  | gray
  | black
deriving DecidableEq, Repr, Inhabited

def colorOf (c : List Color) (u : Nat) : Color := c.getD u .white

/-- DFS state: the color map together with the list of nodes in the order
they were finished (turned black). -/
abbrev DfsState := List Color × List Nat

/-- Visit a list of nodes in order with a given visitor, stopping at the
first detected cycle. -/
def dfsDeps (visit : Nat → DfsState → List Nat → Except (List Nat) DfsState) :
    List Nat → DfsState → List Nat → Except (List Nat) DfsState
  | [], s, _ => .ok s
  | u :: rest, s, path =>
      match visit u s path with
      | .error cyc => .error cyc
      | .ok s1 => dfsDeps visit rest s1 path

/-- Modelled from the spec: depth-first search with a WHITE, GRAY, BLACK
color map (spec section 4.2). A back edge to a GRAY node reveals a cycle;
the reported node list is the segment of the GRAY path between the two
endpoints of the back edge, and only that. The path argument is the chain of
GRAY ancestors, innermost first. -/
def dfsVisit (adj : Nat → List Nat) : Nat → Nat → DfsState → List Nat →
    Except (List Nat) DfsState
  | 0, _, s, _ => .ok s
  | fuel + 1, u, s, path =>
      match colorOf s.1 u with
      | .black => .ok s
      | .gray => .error (u :: path.takeWhile (fun v => decide (v ≠ u)))
      | .white =>
          match dfsDeps (dfsVisit adj fuel) (adj u) (s.1.set u .gray, s.2) (u :: path) with
          | .error cyc => .error cyc
          | .ok s2 => .ok (s2.1.set u .black, s2.2 ++ [u])

/-- Adjacency of the dependency graph of a job array: the dependency list of
each node. -/
def adjOf (jobs : List JobSpec) (u : Nat) : List Nat := (jobs.getD u default).deps

/-- Modelled from the spec: the schedule-time acyclicity check (spec
sections 4.1 and 4.2): DFS over the whole provisional graph; some cyc if a
cycle was found. -/
def cycleCheck (jobs : List JobSpec) : Option (List Nat) :=
  match dfsDeps (dfsVisit (adjOf jobs) (jobs.length + 1)) (List.range jobs.length)
      (List.replicate jobs.length .white, []) [] with
  | .error cyc => some cyc
  | .ok _ => none

/-- Error message carried by a CYCLE error: the names of the jobs on the
detected cycle. -/
def cycleErrMsg (jobs : List JobSpec) (cyc : List Nat) : String :=
  "Load job dependency cycle detected: " ++
    String.intercalate " -> " (cyc.map (fun j => (jobs.getD j default).name))

/-- Modelled from the spec: schedule(jobs) (spec section 4.1): check the
provisional graph (existing jobs plus the batch) for cycles and fail with
CYCLE mutating nothing if one is found; otherwise insert the batch as
PENDING, cancel synchronously every new job one of whose dependencies is
already FAILED or CANCELED (propagating the cause), and seed the ready
queue with the new jobs whose dependencies are all OK. -/
def scheduleInsert (L : Loader) (batch : List JobSpec) : Loader :=
  { L with
    jobs := L.jobs ++ batch
    status := L.status ++ batch.map (fun _ => .PENDING)
    err := L.err ++ batch.map (fun _ => none)
    declPrio := L.declPrio ++ batch.map (fun j => j.prio) }

/-- Seed the ready queue with the inserted jobs (indices at least oldLen)
whose dependencies are all OK, in reverse index order. -/
def scheduleSeed (M : Loader) (oldLen : Nat) : Loader :=
  { M with
    ready := M.ready ++
      ((List.range M.jobs.length).filter (fun j => decide (oldLen ≤ j))).reverse.filter
        (fun j =>
          decide (statusOf M j = .PENDING) &&
          (depsOf M j).all (fun d => decide (statusOf M d = .OK)) &&
          !(M.ready.contains j)) }

def scheduleJobs (L : Loader) (batch : List JobSpec) : Except Err Loader :=
  match cycleCheck (L.jobs ++ batch) with
  | some cyc => .error ⟨.CYCLE, cycleErrMsg (L.jobs ++ batch) cyc⟩
  | none => .ok (scheduleSeed (propagateCancel (scheduleInsert L batch)) L.jobs.length)

/-- The loader state after a schedule call: the new state on success, the
old state unchanged when schedule fails. -/
def scheduleOrKeep (L : Loader) (batch : List JobSpec) : Loader :=
  match scheduleJobs L batch with
  | .error _ => L
  | .ok L1 => L1

/-- The message of the error a schedule call returned (empty on success). -/
def scheduleErrMsg (L : Loader) (batch : List JobSpec) : String :=
  match scheduleJobs L batch with
  | .error e => e.message
  | .ok _ => ""

/-! Multi-worker pool model: a small-step transition system with interleaved
job starts and finishes, used for the concurrency, cancellation-race and
status-visibility claims. Statuses only; a running job is a member of the
executing list and still has status PENDING. -/

/-- Modelled from the spec: pool state (spec sections 4.7 and 5): the job
array, per-job status, the set of currently executing jobs, the log of every
job ever started, and the current max_threads. -/
structure Pool where
  jobs : List JobSpec
  status : List LoadStatus
  executing : List Nat
  started : List Nat
  maxThreads : Nat
deriving DecidableEq, Repr

def pstatusOf (P : Pool) (j : Nat) : LoadStatus := P.status.getD j .PENDING

def pdepsOf (P : Pool) (j : Nat) : List Nat := (P.jobs.getD j default).deps

/-- A job a worker may pick: PENDING, not already picked, all dependencies
OK (spec invariant 6 and section 4.3 step 1). -/
def ReadyP (P : Pool) (j : Nat) : Prop :=
  j < P.jobs.length ∧ pstatusOf P j = .PENDING ∧ j ∉ P.executing ∧
    ∀ d ∈ pdepsOf P j, pstatusOf P d = .OK

instance (P : Pool) (j : Nat) : Decidable (ReadyP P j) := by
  unfold ReadyP; infer_instance

/-- A worker picks job j and invokes its function (spec section 4.3 steps 1
and 2): the job joins the executing set; its status does not change. -/
def startJob (P : Pool) (j : Nat) : Pool :=
  { P with executing := j :: P.executing, started := j :: P.started }

/-- One job of a status-list cancellation sweep: a PENDING job one of whose
dependencies is FAILED or CANCELED becomes CANCELED. -/
def spStep (jobs : List JobSpec) (acc : List LoadStatus) (j : Nat) : List LoadStatus :=
  if decide (acc.getD j .PENDING = .PENDING) &&
      (jobs.getD j default).deps.any (fun d => decide (Bad (acc.getD d .PENDING))) then
    acc.set j .CANCELED
  else acc

/-- One cancellation sweep on a status list over all jobs. -/
def statusPass (jobs : List JobSpec) (st : List LoadStatus) : List LoadStatus :=
  (List.range jobs.length).foldl (spStep jobs) st

/-- Modelled from the spec: cancellation propagation on statuses, to all
direct and transitive dependents (spec sections 4.3 and 4.5), as a monotone
fixpoint of sweeps. -/
def statusPropagate (jobs : List JobSpec) (st : List LoadStatus) : List LoadStatus :=
  (statusPass jobs)^[jobs.length + 1] st

/-- The worker finished job j and the user function returned normally (spec
section 4.3 step 3): status OK, job leaves the executing set. -/
def finishJobOk (P : Pool) (j : Nat) : Pool :=
  { P with
    executing := P.executing.filter (fun k => decide (k ≠ j))
    status := P.status.set j .OK }

/-- The worker finished job j and the user function threw (spec section 4.3
step 4): status FAILED, job leaves the executing set, cancellation
propagates to all transitive dependents. -/
def finishJobFailed (P : Pool) (j : Nat) : Pool :=
  { P with
    executing := P.executing.filter (fun k => decide (k ≠ j))
    status := statusPropagate P.jobs (P.status.set j .FAILED) }

/-- Modelled from the spec: the synchronous part of remove(task) (spec
sections 4.1 and 4.5): every member that is still PENDING and not currently
executing becomes CANCELED, and cancellation propagates; members that are
currently executing are left untouched (a RUNNING job cannot be canceled
mid-execution; remove then waits for them to finish naturally). This is the
per-member step. -/
def rpStep (executing : List Nat) (acc : List LoadStatus) (j : Nat) : List LoadStatus :=
  if decide (acc.getD j .PENDING = .PENDING) && !(executing.contains j) then
    acc.set j .CANCELED
  else acc

/-- Remove a task from the pool: cancel pending non-executing members and
propagate. -/
def removeStep (P : Pool) (task : List Nat) : Pool :=
  { P with status := statusPropagate P.jobs (task.foldl (rpStep P.executing) P.status) }

/-- Remove has returned: every member of the task is terminal (remove waits
for executing members to finish naturally). -/
def RemoveReturned (P : Pool) (task : List Nat) : Prop :=
  ∀ j ∈ task, pstatusOf P j ≠ .PENDING

/-- Modelled from the spec: setMaxThreads (spec section 4.7): the target is
replaced; jobs already running are not interrupted. -/
def setMaxThreads (P : Pool) (m : Nat) : Pool :=
  { P with maxThreads := m }

/-- Modelled from the spec: one interleaved scheduler event: a worker starts
a ready job (only when below max_threads), a worker finishes a job normally
or with a failure, a caller removes a task, or a caller reshapes the pool. -/
inductive PStep : Pool → Pool → Prop
  | start (P : Pool) (j : Nat) : ReadyP P j → P.executing.length < P.maxThreads →
      PStep P (startJob P j)
  | finishOk (P : Pool) (j : Nat) : j ∈ P.executing → PStep P (finishJobOk P j)
  | finishFailed (P : Pool) (j : Nat) : j ∈ P.executing → PStep P (finishJobFailed P j)
  | removeTask (P : Pool) (task : List Nat) : PStep P (removeStep P task)
  | setMax (P : Pool) (m : Nat) : PStep P (setMaxThreads P m)

/-- The disciplined step relation: identical to PStep except that
setMaxThreads may only be called when the new target is not below the
current number of executing jobs (which is how the SetMaxThreads test
orchestrates its calls, at drain points). -/
inductive DStep : Pool → Pool → Prop
  | start (P : Pool) (j : Nat) : ReadyP P j → P.executing.length < P.maxThreads →
      DStep P (startJob P j)
  | finishOk (P : Pool) (j : Nat) : j ∈ P.executing → DStep P (finishJobOk P j)
  | finishFailed (P : Pool) (j : Nat) : j ∈ P.executing → DStep P (finishJobFailed P j)
  | removeTask (P : Pool) (task : List Nat) : DStep P (removeStep P task)
  | setMax (P : Pool) (m : Nat) : P.executing.length ≤ m → DStep P (setMaxThreads P m)

/-- Fresh pool over a job array. -/
def initPool (jobs : List JobSpec) (m : Nat) : Pool :=
  { jobs := jobs
    status := jobs.map (fun _ => .PENDING)
    executing := []
    started := []
    maxThreads := m }

/-- Commands for replaying concrete interleavings of pool events. -/
inductive PoolCmd
  | start (j : Nat)
  | finOk (j : Nat)
  | finFail (j : Nat)
  | rm (task : List Nat)
  | setMax (m : Nat)
deriving DecidableEq, Repr

/-- Apply one command, checking the guard of the corresponding disciplined
step; none when the guard fails. -/
def applyCmd (P : Pool) : PoolCmd → Option Pool
  | .start j =>
      if ReadyP P j ∧ P.executing.length < P.maxThreads then some (startJob P j) else none
  | .finOk j => if j ∈ P.executing then some (finishJobOk P j) else none
  | .finFail j => if j ∈ P.executing then some (finishJobFailed P j) else none
  | .rm task => some (removeStep P task)
  | .setMax m => if P.executing.length ≤ m then some (setMaxThreads P m) else none

/-- Replay a command list, failing if any guard fails. -/
def runCmds (P : Pool) : List PoolCmd → Option Pool
  | [] => some P
  | c :: cs =>
      match applyCmd P c with
      | none => none
      | some P1 => runCmds P1 cs

/-! Invariant predicates used by the theorems. -/

/-- Dependency edge of a job array: job j depends on job d. -/
def EdgeTo (jobs : List JobSpec) (j d : Nat) : Prop := d ∈ (jobs.getD j default).deps

instance (jobs : List JobSpec) (j d : Nat) : Decidable (EdgeTo jobs j d) :=
  inferInstanceAs (Decidable (d ∈ (jobs.getD j default).deps))

/-- A cycle in the dependency graph: some node reaches itself through at
least one dependency edge. -/
def HasCycle (jobs : List JobSpec) : Prop :=
  ∃ u, Relation.TransGen (EdgeTo jobs) u u

/-- All dependency references of a job array stay inside the array (jobs
only depend on jobs that exist, as pointers do in the source). -/
def WFDeps (jobs : List JobSpec) : Prop :=
  ∀ j, j < jobs.length → ∀ d ∈ adjOf jobs j, d < jobs.length

instance (jobs : List JobSpec) : Decidable (WFDeps jobs) := by
  unfold WFDeps; infer_instance

/-- The hypothesis a single-node visit carries about how it was reached: if
the path is nonempty, the visited node is a dependency of the innermost
gray ancestor. -/
def HeadHyp (jobs : List JobSpec) (path : List Nat) (u : Nat) : Prop :=
  ∀ p0 rest, path = p0 :: rest → EdgeTo jobs p0 u

/-- The reported list is nonempty and every reported node lies on a
dependency cycle. -/
def CycSpec (jobs : List JobSpec) (cyc : List Nat) : Prop :=
  cyc ≠ [] ∧ ∀ x ∈ cyc, Relation.TransGen (EdgeTo jobs) x x

/-- Invariant of the depth-first search: the color map has one entry per
node, the GRAY nodes are exactly the current path of the search, the path
repeats no node, the BLACK nodes are exactly the finished order, and each
finished node's dependencies appear earlier in the finished order. -/
def DfsInv (jobs : List JobSpec) (s : DfsState) (path : List Nat) : Prop :=
  s.1.length = jobs.length ∧
  (∀ v, colorOf s.1 v = .gray ↔ v ∈ path) ∧
  path.Nodup ∧
  (∀ v, colorOf s.1 v = .black ↔ v ∈ s.2) ∧
  (∀ i, i < s.2.length → ∀ d ∈ adjOf jobs (s.2.getD i 0), d ∈ s.2.take i)

/-- What one search call may do to the state: colors keep their count, no
black node is lost, the gray set is unchanged, and the finished order only
grows at the end. -/
def DfsPost (s s' : DfsState) : Prop :=
  s'.1.length = s.1.length ∧
  (∀ v, colorOf s.1 v = .black → colorOf s'.1 v = .black) ∧
  (∀ v, colorOf s'.1 v = .gray ↔ colorOf s.1 v = .gray) ∧
  ∃ t, s'.2 = s.2 ++ t

/-- The search path lists the GRAY ancestors innermost first: each entry is
a dependency of the next. -/
def PathChain (jobs : List JobSpec) : List Nat → Prop
  | [] => True
  | p :: rest => List.Chain (fun a b => EdgeTo jobs b a) p rest

/-- The executed order is topological: every executed job appears after all
of its dependencies. -/
def TopoOrder (L : Loader) : Prop :=
  ∀ i, i < L.done.length → ∀ d ∈ depsOf L (L.done.getD i 0), d ∈ L.done.take i

/-- No PENDING job has a FAILED or CANCELED dependency: cancellation
propagation has reached its fixpoint. -/
def NoBadDepPending (L : Loader) : Prop :=
  ∀ j, statusOf L j = .PENDING → ∀ d ∈ depsOf L j, ¬ Bad (statusOf L d)

/-- Structural invariants of the single-worker loader, maintained by every
scheduling event. -/
structure LInv (L : Loader) : Prop where
  len_status : L.status.length = L.jobs.length
  len_err : L.err.length = L.jobs.length
  ready_lt : ∀ j ∈ L.ready, j < L.jobs.length
  ready_pending : ∀ j ∈ L.ready, statusOf L j = .PENDING
  ready_deps_ok : ∀ j ∈ L.ready, ∀ d ∈ depsOf L j, statusOf L d = .OK
  done_lt : ∀ j ∈ L.done, j < L.jobs.length
  done_terminal : ∀ j, statusOf L j = .OK ∨ statusOf L j = .FAILED → j ∈ L.done
  done_deps_ok : ∀ j ∈ L.done, ∀ d ∈ depsOf L j, statusOf L d = .OK
  topo : TopoOrder L
  err_canceled : ∀ j, statusOf L j = .CANCELED → ∃ m, errOf L j = some ⟨.CANCELED, m⟩
  err_failed : ∀ j, statusOf L j = .FAILED → ∃ m, errOf L j = some ⟨.FAILED, m⟩

/-- Number of PENDING entries of a status list, the termination measure of
cancellation propagation. -/
def pendC (st : List LoadStatus) : Nat :=
  st.countP (fun s => decide (s = LoadStatus.PENDING))

/-- How a loader state may evolve under a cancellation event: the graph, the
priorities, the log and the executed order are untouched, the ready queue
only shrinks (and surviving entries keep their status), and each job either
keeps its status and error or goes from PENDING to CANCELED with a stored
error of kind CANCELED. -/
def CEvol (A B : Loader) : Prop :=
  B.jobs = A.jobs ∧ B.declPrio = A.declPrio ∧ B.log = A.log ∧ B.done = A.done ∧
  B.status.length = A.status.length ∧ B.err.length = A.err.length ∧
  (∀ k ∈ B.ready, k ∈ A.ready ∧ statusOf B k = statusOf A k) ∧
  (∀ k, (statusOf B k = statusOf A k ∧ errOf B k = errOf A k) ∨
    (statusOf A k = .PENDING ∧ statusOf B k = .CANCELED ∧
      ∃ m, errOf B k = some ⟨.CANCELED, m⟩))

/-- How a loader state evolves under dependency-driven cancellation
propagation: as CEvol, and additionally every newly canceled job cites a
FAILED or CANCELED dependency, its stored message being the cancel message
built from its own name and the message stored for that dependency. -/
def PropEvol (A B : Loader) : Prop :=
  B.jobs = A.jobs ∧ B.declPrio = A.declPrio ∧ B.log = A.log ∧ B.done = A.done ∧
  B.status.length = A.status.length ∧ B.err.length = A.err.length ∧
  (∀ k ∈ B.ready, k ∈ A.ready ∧ statusOf B k = statusOf A k) ∧
  (∀ k, (statusOf B k = statusOf A k ∧ errOf B k = errOf A k) ∨
    (statusOf A k = .PENDING ∧ statusOf B k = .CANCELED ∧
      ∃ d ∈ depsOf B k, Bad (statusOf B d) ∧
        errOf B k = some ⟨.CANCELED, cancelMsg (nameOf B k) (msgOf B d)⟩))

/-- Structural invariants of the pool model, maintained by every step. -/
structure PInv (P : Pool) : Prop where
  len_status : P.status.length = P.jobs.length
  exec_lt : ∀ j ∈ P.executing, j < P.jobs.length
  exec_pending : ∀ j ∈ P.executing, pstatusOf P j = .PENDING
  exec_nodup : P.executing.Nodup
  exec_started : ∀ j ∈ P.executing, j ∈ P.started
  started_deps_ok : ∀ j ∈ P.started, ∀ d ∈ pdepsOf P j, pstatusOf P d = .OK
  started_pending_exec : ∀ j ∈ P.started, pstatusOf P j = .PENDING → j ∈ P.executing
  canceled_not_started : ∀ j, pstatusOf P j = .CANCELED → j ∉ P.started

/-! Concrete scenarios from the unit tests. -/

/-- Scenario 5 of the spec (StaticPriorities test): the DAG A with
dependents B(3), C(4), D(1), E(2); D and E feed F(0), then G(0), then
H(9). -/
def scen5jobs : List JobSpec :=
  [ ⟨"A", [], 0, none⟩, ⟨"B", [0], 3, none⟩, ⟨"C", [0], 4, none⟩, ⟨"D", [0], 1, none⟩,
    ⟨"E", [0], 2, none⟩, ⟨"F", [3, 4], 0, none⟩, ⟨"G", [5], 0, none⟩, ⟨"H", [6], 9, none⟩ ]

/-- Scenario 6 of the spec (DynamicPriorities test): same DAG with declared
priorities A0, B3, C4, D1, E2, F0, G0, H0. -/
def scen6jobs : List JobSpec :=
  [ ⟨"A", [], 0, none⟩, ⟨"B", [0], 3, none⟩, ⟨"C", [0], 4, none⟩, ⟨"D", [0], 1, none⟩,
    ⟨"E", [0], 2, none⟩, ⟨"F", [3, 4], 0, none⟩, ⟨"G", [5], 0, none⟩, ⟨"H", [6], 0, none⟩ ]

/-- The dynamic reprioritization of scenario 6: while C (index 2) executes,
prioritize(G, 9) is invoked (G is index 6). -/
def hook6 : Nat → List (Nat × Int) := fun j => if j = 2 then [(6, 9)] else []

/-- Scenario 2 of the spec (CycleDetection test): jobs j0..j10 with the
forced extra edge j1 to j3 closing the cycle j1, j3, j2. -/
def scen2jobs : List JobSpec :=
  [ ⟨"job0", [], 0, none⟩, ⟨"job1", [0, 3], 0, none⟩, ⟨"job2", [0, 1], 0, none⟩,
    ⟨"job3", [0, 2], 0, none⟩, ⟨"job4", [1], 0, none⟩, ⟨"job5", [4], 0, none⟩,
    ⟨"job6", [3], 0, none⟩, ⟨"job7", [1, 2, 3, 4, 5, 6], 0, none⟩,
    ⟨"job8", [], 0, none⟩, ⟨"job9", [], 0, none⟩, ⟨"job10", [9], 0, none⟩ ]

/-- Scenario 4 of the spec (JobFailure and ScheduleJobWithFailedDependencies
tests): a job whose user function throws with message test job failure. -/
def failedJob : JobSpec := ⟨"failed_job", [], 0, some "test job failure"⟩

/-- The loader after the failing job ran. -/
def scen4mid : Loader := run noHook 1 (initLoader [failedJob])

/-- The loader after scheduling job1 (depending on the failed job) and job2
(depending on job1): both are canceled synchronously during schedule. -/
def scen4sched : Loader :=
  scheduleOrKeep scen4mid [⟨"job1", [0], 0, none⟩, ⟨"job2", [1], 0, none⟩]

/-- Counterexample graph for the message part of the failure-propagation
claim: two independently failing jobs f1 and f2 and one job j depending on
both. -/
def cexJobs : List JobSpec :=
  [⟨"f1", [], 0, some "m1"⟩, ⟨"f2", [], 0, some "m2"⟩, ⟨"j", [0, 1], 0, none⟩]

/-- The counterexample graph fully executed. -/
def cexRun : Loader := run noHook 3 (initLoader cexJobs)

/-- Scenario 3 of the spec (ScheduleJobWithCanceledDependencies test): a job
scheduled and then canceled through task remove. -/
def scenC4a : Loader := removeTaskL (initLoader [⟨"canceled_job", [], 0, none⟩]) [0]

/-- Scheduling job1 (depending on the canceled job) and job2 (depending on
job1): both become CANCELED before schedule returns. -/
def scenC4b : Loader :=
  scheduleOrKeep scenC4a [⟨"job1", [0], 0, none⟩, ⟨"job2", [1], 0, none⟩]

/-- The sequence of max_threads targets of the SetMaxThreads test. -/
def smtValues : List Nat := [1, 2, 3, 4, 5, 4, 3, 2, 1, 5, 10, 5, 1, 20, 1]

/-- One phase of the SetMaxThreads orchestration: set the target, start that
many fresh jobs, then let them all finish. -/
def phaseCmds (c m : Nat) : List PoolCmd :=
  [.setMax m] ++ ((List.range m).map (fun i => .start (c + i))) ++
    ((List.range m).map (fun i => .finOk (c + i)))

/-- All phases of the SetMaxThreads orchestration, consuming fresh jobs from
a backlog counter. -/
def allPhases : List Nat → Nat → List PoolCmd
  | [], _ => []
  | m :: rest, c => phaseCmds c m ++ allPhases rest (c + m)

/-- Backlog of independent trivial jobs for the SetMaxThreads
orchestration. -/
def smtJobs : List JobSpec := List.replicate 67 ⟨"job", [], 0, none⟩

def smtInit : Pool := initPool smtJobs 1

/-- The command prefix of the orchestration that ends right after the i-th
phase has started all of its jobs (the observation point at which the test
requires the concurrent-execution count to equal the target exactly). -/
def startsPrefix (i : Nat) : List PoolCmd :=
  let c := (smtValues.take i).sum
  let m := smtValues.getD i 0
  allPhases (smtValues.take i) 0 ++ [.setMax m] ++ (List.range m).map (fun k => .start (c + k))

/-- The CancelExecutingTask scenario: a blocker job, two members of the same
task depending on it whose functions must never run, and a job of another
task depending on the same blocker. -/
def c6jobs : List JobSpec :=
  [ ⟨"blocker_job", [], 0, none⟩, ⟨"job_to_cancel", [0], 0, none⟩,
    ⟨"job_to_cancel", [0], 0, none⟩, ⟨"job_to_succeed", [0], 0, none⟩ ]

def c6init : Pool := initPool c6jobs 16

/-- The interleaving of the CancelExecutingTask test: the blocker starts
executing, remove on its task is observed while it runs, the blocker then
finishes naturally, and the other task member runs afterwards. -/
def c6cmds : List PoolCmd := [.start 0, .rm [0, 1, 2], .finOk 0, .start 3, .finOk 3]

/-- Pool used for the max_threads counterexample: two independent jobs, two
workers. -/
def c8cexInit : Pool := initPool [⟨"a", [], 0, none⟩, ⟨"b", [], 0, none⟩] 2

/-- The state after both jobs started and max_threads was then lowered to 1
while both still run. -/
def c8cexFinal : Pool :=
  setMaxThreads (startJob (startJob c8cexInit 0) 1) 1

/-- How a pool status list may evolve under a cancellation sweep, with a
bad-dependency certificate relative to the final list: each entry keeps its
value or goes from PENDING to CANCELED citing a FAILED or CANCELED
dependency. -/
def SPEvol (jobs : List JobSpec) (a b : List LoadStatus) : Prop :=
  b.length = a.length ∧
  ∀ k, b.getD k .PENDING = a.getD k .PENDING ∨
    (a.getD k .PENDING = .PENDING ∧ b.getD k .PENDING = .CANCELED ∧
      ∃ d ∈ (jobs.getD k default).deps, Bad (b.getD d .PENDING))

/-- How a pool status list may evolve under the synchronous member sweep of
a task remove: each entry keeps its value or goes from PENDING to CANCELED,
and an entry of a currently executing job is never changed. -/
def REvol (ex : List Nat) (a b : List LoadStatus) : Prop :=
  b.length = a.length ∧
  ∀ k, b.getD k .PENDING = a.getD k .PENDING ∨
    (a.getD k .PENDING = .PENDING ∧ b.getD k .PENDING = .CANCELED ∧ k ∉ ex)

/-- The pool at the end of the CancelExecutingTask interleaving. -/
def c6final : Pool := (runCmds c6init c6cmds).getD (initPool [] 0)

/-- The pool at the observation point right after the i-th SetMaxThreads
phase has started all of its jobs. -/
def smtPrefixPool (i : Nat) : Pool := (runCmds smtInit (startsPrefix i)).getD (initPool [] 0)

/-- The pool after the whole SetMaxThreads orchestration has drained. -/
def smtFinal : Pool := (runCmds smtInit (allPhases smtValues 0)).getD (initPool [] 0)

instance (P : Pool) (task : List Nat) : Decidable (RemoveReturned P task) := by
  unfold RemoveReturned; infer_instance

/-! Helper lemmas about folds of max, used for effective priorities. -/

theorem foldl_max_acc_mono {f : Nat → Int} {a b : Int} (h : a ≤ b) :
    ∀ l : List Nat, l.foldl (fun acc k => max acc (f k)) a ≤ l.foldl (fun acc k => max acc (f k)) b := by
  intro l
  induction l generalizing a b with
  | nil => exact h
  | cons x xs ih => exact ih (max_le_max_right _ h)

theorem le_foldl_max {f : Nat → Int} (a : Int) :
    ∀ l : List Nat, a ≤ l.foldl (fun acc k => max acc (f k)) a := by
  intro l
  induction l generalizing a with
  | nil => exact le_refl a
  | cons x xs ih => exact le_trans (le_max_left a (f x)) (ih _)

theorem foldl_max_ge_elem {f : Nat → Int} (a : Int) {k : Nat} :
    ∀ l : List Nat, k ∈ l → f k ≤ l.foldl (fun acc m => max acc (f m)) a := by
  intro l
  induction l generalizing a with
  | nil => intro h; cases h
  | cons x xs ih =>
      intro h
      rcases List.mem_cons.mp h with h | h
      · subst h
        exact le_trans (le_max_right a (f k)) (le_foldl_max _ _)
      · exact ih _ h

theorem foldl_max_mono_f {f g : Nat → Int} {a b : Int} (h : a ≤ b)
    (hfg : ∀ k, f k ≤ g k) :
    ∀ l : List Nat, l.foldl (fun acc m => max acc (f m)) a ≤ l.foldl (fun acc m => max acc (g m)) b := by
  intro l
  induction l generalizing a b with
  | nil => exact h
  | cons x xs ih => exact ih (max_le_max h (hfg x))

/-! Effective priority lemmas. -/

/-- Effective priority is at least the declared priority. -/
theorem effPrioFuel_ge_decl (jobs : List JobSpec) (dp : List Int) :
    ∀ fuel j, dp.getD j 0 ≤ effPrioFuel jobs dp fuel j := by
  intro fuel j
  cases fuel with
  | zero => exact le_refl _
  | succ n => exact le_foldl_max _ _

/-- Effective priority is monotone in the declared priorities: raising any
declared priority never lowers any effective priority. -/
theorem effPrioFuel_mono (jobs : List JobSpec) {dp dp' : List Int}
    (h : ∀ k, dp.getD k 0 ≤ dp'.getD k 0) :
    ∀ fuel j, effPrioFuel jobs dp fuel j ≤ effPrioFuel jobs dp' fuel j := by
  intro fuel
  induction fuel with
  | zero => exact h
  | succ n ih =>
      intro j
      exact foldl_max_mono_f (h j) ih _

/-- Backward propagation of effective priorities: the effective priority of
a dependency is at least the effective priority of each of its dependents
(one more unfolding step on the dependency side). -/
theorem effPrioFuel_backward (jobs : List JobSpec) (dp : List Int) (fuel : Nat)
    {k d : Nat} (hk : k < jobs.length) (hd : d ∈ (jobs.getD k default).deps) :
    effPrioFuel jobs dp fuel k ≤ effPrioFuel jobs dp (fuel + 1) d := by
  have hmem : k ∈ dependentsOf jobs d := by
    unfold dependentsOf
    refine List.mem_filter.mpr ⟨List.mem_range.mpr hk, ?_⟩
    simpa using hd
  exact foldl_max_ge_elem _ _ hmem

/-- Declared priorities after prioritize are pointwise at least the old
ones. -/
theorem prioritizeJob_decl_mono (L : Loader) (j : Nat) (p : Int) (k : Nat) :
    L.declPrio.getD k 0 ≤ (prioritizeJob L j p).declPrio.getD k 0 := by
  unfold prioritizeJob
  by_cases hjk : j = k
  · subst hjk
    by_cases hj : j < L.declPrio.length
    · simp [List.getD, List.getElem?_set_self, hj]
    · rw [List.set_eq_of_length_le (Nat.le_of_not_lt hj)]
  · simp [List.getD, List.getElem?_set_ne hjk]

/-- Prioritize raises the declared priority of the target to at least the
requested value. -/
theorem prioritizeJob_decl_ge (L : Loader) (j : Nat) (p : Int)
    (hj : j < L.declPrio.length) :
    p ≤ (prioritizeJob L j p).declPrio.getD j 0 := by
  unfold prioritizeJob
  simp [List.getD, List.getElem?_set_self, hj]

/-! Dequeue lemmas: pickBest selects a ready job of maximal effective
priority and breaks ties FIFO (the first enqueued among the maximal
ones). -/

theorem pickBest_eq_none (L : Loader) : ∀ l, pickBest L l = none ↔ l = [] := by
  intro l
  cases l with
  | nil => simp [pickBest]
  | cons x xs =>
      simp only [pickBest]
      constructor
      · intro h
        cases hxs : pickBest L xs <;> rw [hxs] at h
        · exact absurd h (by simp)
        · rename_i k
          by_cases hlt : effPrio L x < effPrio L k <;> simp [hlt] at h
      · intro h; cases h

theorem pickBest_mem (L : Loader) : ∀ l j, pickBest L l = some j → j ∈ l := by
  intro l
  induction l with
  | nil => intro j h; cases h
  | cons x xs ih =>
      intro j h
      simp only [pickBest] at h
      cases hxs : pickBest L xs <;> rw [hxs] at h
      · cases h; exact List.mem_cons_self _ _
      · rename_i k
        by_cases hlt : effPrio L x < effPrio L k <;> simp [hlt] at h
        · subst h; exact List.mem_cons_of_mem _ (ih _ hxs)
        · subst h; exact List.mem_cons_self _ _

theorem pickBest_is_max (L : Loader) : ∀ l j, pickBest L l = some j →
    ∀ k ∈ l, effPrio L k ≤ effPrio L j := by
  intro l
  induction l with
  | nil => intro j h; cases h
  | cons x xs ih =>
      intro j h k hk
      simp only [pickBest] at h
      cases hxs : pickBest L xs <;> rw [hxs] at h
      · cases h
        rcases List.mem_cons.mp hk with h | h
        · subst h; exact le_refl _
        · rw [(pickBest_eq_none L xs).mp hxs] at h; cases h
      · rename_i k0
        by_cases hlt : effPrio L x < effPrio L k0 <;> simp [hlt] at h <;> subst h
        · rcases List.mem_cons.mp hk with h | h
          · subst h; exact le_of_lt hlt
          · exact ih _ hxs _ h
        · rcases List.mem_cons.mp hk with h | h
          · subst h; exact le_refl _
          · exact le_trans (ih _ hxs _ h) (le_of_not_lt hlt)

theorem pickBest_first_max (L : Loader) : ∀ l j, pickBest L l = some j →
    ∃ l1 l2, l = l1 ++ j :: l2 ∧ ∀ k ∈ l1, effPrio L k < effPrio L j := by
  intro l
  induction l with
  | nil => intro j h; cases h
  | cons x xs ih =>
      intro j h
      simp only [pickBest] at h
      cases hxs : pickBest L xs <;> rw [hxs] at h
      · cases h
        exact ⟨[], xs, rfl, by intro k hk; cases hk⟩
      · rename_i k0
        by_cases hlt : effPrio L x < effPrio L k0 <;> simp [hlt] at h <;> subst h
        · rcases ih _ hxs with ⟨l1, l2, heq, hpre⟩
          refine ⟨x :: l1, l2, by rw [heq]; rfl, ?_⟩
          intro k hk
          rcases List.mem_cons.mp hk with h | h
          · subst h; exact hlt
          · exact hpre _ h
        · exact ⟨[], xs, rfl, by intro k hk; cases hk⟩

/-- C10. Implicit claim: the job method priority() reports the effective
(inherited) priority, not the declared one: in scenario 5 the declared
priorities are 0, 3, 4, 1, 2, 0, 0, 9, yet every job of the chain A, E, D,
F, G, H reports priority 9 from inside its own user function (the execution
log records name and reported priority); job A itself is constructed with
declared priority 0 and reports 9. In general the reported effective
priority is at least the declared one. -/
theorem c10_priority_reports_effective :
    scen5jobs.map (fun j => j.prio) = [0, 3, 4, 1, 2, 0, 0, 9] ∧
    (initLoader scen5jobs).declPrio.getD 0 0 = 0 ∧
    effPrio (initLoader scen5jobs) 0 = 9 ∧
    (run noHook 8 (initLoader scen5jobs)).log =
      [("A", 9), ("E", 9), ("D", 9), ("F", 9), ("G", 9), ("H", 9), ("C", 4), ("B", 3)] ∧
    (∀ L j, L.declPrio.getD j 0 ≤ effPrio L j) :=
  ⟨by decide, by decide, by decide, by decide,
   fun L j => effPrioFuel_ge_decl L.jobs L.declPrio L.jobs.length j⟩

/-- C5. Dynamic priorities: on the scenario 6 DAG with a single worker,
invoking prioritize(G, 9) while C executes yields the execution order A, C,
E, D, F, G, B, H, and without the prioritize call the order is A, C, B, E,
D, F, G, H (the log also records the reported effective priorities asserted
by the DynamicPriorities test). In general prioritize raises the declared
priority of the target to at least the given value, never lowers any
declared or effective priority, and effective priorities propagate backward
along dependency edges. -/
theorem c5_dynamic_priorities :
    (run hook6 8 (initLoader scen6jobs)).log =
      [("A", 4), ("C", 4), ("E", 9), ("D", 9), ("F", 9), ("G", 9), ("B", 3), ("H", 0)] ∧
    (run noHook 8 (initLoader scen6jobs)).log =
      [("A", 4), ("C", 4), ("B", 3), ("E", 2), ("D", 1), ("F", 0), ("G", 0), ("H", 0)] ∧
    (∀ L j p, j < L.declPrio.length → p ≤ (prioritizeJob L j p).declPrio.getD j 0) ∧
    (∀ L j p k, L.declPrio.getD k 0 ≤ (prioritizeJob L j p).declPrio.getD k 0) ∧
    (∀ L j p fuel k,
      effPrioFuel L.jobs L.declPrio fuel k ≤ effPrioFuel L.jobs (prioritizeJob L j p).declPrio fuel k) ∧
    (∀ jobs dp fuel k d, k < jobs.length → d ∈ (jobs.getD k default).deps →
      effPrioFuel jobs dp fuel k ≤ effPrioFuel jobs dp (fuel + 1) d) :=
  ⟨by decide, by decide,
   fun L j p hj => prioritizeJob_decl_ge L j p hj,
   fun L j p k => prioritizeJob_decl_mono L j p k,
   fun L j p fuel k => effPrioFuel_mono L.jobs (prioritizeJob_decl_mono L j p) fuel k,
   fun jobs dp fuel k d hk hd => effPrioFuel_backward jobs dp fuel hk hd⟩

/-- Witness for c5_dynamic_priorities: the hypothesis-bearing clauses
applied at concrete inputs of scenario 6 (prioritize G, which is index 6, to
9; dependency edge from H, index 7, to G). -/
theorem c5_dynamic_priorities_witness :
    (6 < (initLoader scen6jobs).declPrio.length ∧
      (9 : Int) ≤ (prioritizeJob (initLoader scen6jobs) 6 9).declPrio.getD 6 0) ∧
    (7 < scen6jobs.length ∧ 6 ∈ (scen6jobs.getD 7 default).deps ∧
      effPrioFuel scen6jobs (initLoader scen6jobs).declPrio 3 7 ≤
        effPrioFuel scen6jobs (initLoader scen6jobs).declPrio 4 6) :=
  ⟨⟨by decide, c5_dynamic_priorities.2.2.1 (initLoader scen6jobs) 6 9 (by decide)⟩,
   ⟨by decide, by decide,
    c5_dynamic_priorities.2.2.2.2.2 scen6jobs (initLoader scen6jobs).declPrio 3 7 6
      (by decide) (by decide)⟩⟩

/-! Basic accessor lemmas. -/

theorem getD_set_eq {α : Type} (l : List α) (i : Nat) (a d : α) (h : i < l.length) :
    (l.set i a).getD i d = a := by
  simp [List.getD, List.getElem?_set_self, h]

theorem getD_set_ne {α : Type} (l : List α) {i k : Nat} (a d : α) (h : i ≠ k) :
    (l.set i a).getD k d = l.getD k d := by
  simp [List.getD, List.getElem?_set_ne h]

theorem getD_eq_getElem {α : Type} (l : List α) {i : Nat} (d : α) (h : i < l.length) :
    l.getD i d = l[i] := by
  simp [List.getD, List.getElem?_eq_getElem h]

theorem setStatus_jobs (L : Loader) (j : Nat) (st : LoadStatus) (e : Option Err) :
    (setStatus L j st e).jobs = L.jobs := rfl

theorem setStatus_declPrio (L : Loader) (j : Nat) (st : LoadStatus) (e : Option Err) :
    (setStatus L j st e).declPrio = L.declPrio := rfl

theorem setStatus_log (L : Loader) (j : Nat) (st : LoadStatus) (e : Option Err) :
    (setStatus L j st e).log = L.log := rfl

theorem setStatus_done (L : Loader) (j : Nat) (st : LoadStatus) (e : Option Err) :
    (setStatus L j st e).done = L.done := rfl

theorem setStatus_status_len (L : Loader) (j : Nat) (st : LoadStatus) (e : Option Err) :
    (setStatus L j st e).status.length = L.status.length := by
  simp [setStatus]

theorem setStatus_err_len (L : Loader) (j : Nat) (st : LoadStatus) (e : Option Err) :
    (setStatus L j st e).err.length = L.err.length := by
  simp [setStatus]

theorem statusOf_setStatus_self (L : Loader) {j : Nat} (st : LoadStatus) (e : Option Err)
    (h : j < L.status.length) : statusOf (setStatus L j st e) j = st :=
  getD_set_eq _ _ _ _ h

theorem statusOf_setStatus_ne (L : Loader) {j k : Nat} (st : LoadStatus) (e : Option Err)
    (h : j ≠ k) : statusOf (setStatus L j st e) k = statusOf L k :=
  getD_set_ne _ _ _ h

theorem errOf_setStatus_self (L : Loader) {j : Nat} (st : LoadStatus) (e : Option Err)
    (h : j < L.err.length) : errOf (setStatus L j st e) j = e :=
  getD_set_eq _ _ _ _ h

theorem errOf_setStatus_ne (L : Loader) {j k : Nat} (st : LoadStatus) (e : Option Err)
    (h : j ≠ k) : errOf (setStatus L j st e) k = errOf L k :=
  getD_set_ne _ _ _ h

theorem mem_ready_setStatus (L : Loader) (j : Nat) (st : LoadStatus) (e : Option Err)
    (k : Nat) : k ∈ (setStatus L j st e).ready ↔ k ∈ L.ready ∧ k ≠ j := by
  simp [setStatus, List.mem_filter]

theorem default_jobSpec_deps : (default : JobSpec).deps = [] := rfl

/-! Lemmas about badDep. -/

theorem badDep_none_iff (L : Loader) (j : Nat) :
    badDep L j = none ↔ ∀ d ∈ depsOf L j, ¬ Bad (statusOf L d) := by
  unfold badDep
  rw [List.findSome?_eq_none_iff]
  constructor
  · intro h d hd hbad
    have := h d hd
    rcases hbad with hbad | hbad <;> rw [hbad] at this <;> exact absurd this (by simp)
  · intro h d hd
    have := h d hd
    cases hst : statusOf L d
    · rfl
    · rfl
    · exact absurd (Or.inl hst) this
    · exact absurd (Or.inr hst) this

theorem badDep_some (L : Loader) (j : Nat) (c : String) (h : badDep L j = some c) :
    ∃ d ∈ depsOf L j, Bad (statusOf L d) ∧ c = msgOf L d := by
  unfold badDep at h
  rcases List.exists_of_findSome?_eq_some h with ⟨d, hd, hfd⟩
  refine ⟨d, hd, ?_⟩
  cases hst : statusOf L d <;> rw [hst] at hfd
  · cases hfd
  · cases hfd
  · exact ⟨Or.inl rfl, by cases hfd; rfl⟩
  · exact ⟨Or.inr rfl, by cases hfd; rfl⟩

/-! The evolution relations are reflexive and transitive. -/

theorem PropEvol_refl (L : Loader) : PropEvol L L :=
  ⟨rfl, rfl, rfl, rfl, rfl, rfl, fun k hk => ⟨hk, rfl⟩, fun _ => Or.inl ⟨rfl, rfl⟩⟩

theorem PropEvol_trans {A M B : Loader} (h1 : PropEvol A M) (h2 : PropEvol M B) :
    PropEvol A B := by
  obtain ⟨j1, p1, l1, d1, s1, e1, r1, f1⟩ := h1
  obtain ⟨j2, p2, l2, d2, s2, e2, r2, f2⟩ := h2
  refine ⟨j2.trans j1, p2.trans p1, l2.trans l1, d2.trans d1, s2.trans s1, e2.trans e1, ?_, ?_⟩
  · intro k hk
    rcases r2 k hk with ⟨hkM, hsM⟩
    rcases r1 k hkM with ⟨hkA, hsA⟩
    exact ⟨hkA, hsM.trans hsA⟩
  · intro k
    rcases f2 k with ⟨hs2, he2⟩ | ⟨hp2, hc2, d, hd, hbad, herr⟩
    · rcases f1 k with ⟨hs1, he1⟩ | ⟨hp1, hc1, d, hd, hbad, herr⟩
      · exact Or.inl ⟨hs2.trans hs1, he2.trans he1⟩
      · refine Or.inr ⟨hp1, hs2.trans hc1, d, ?_, ?_, ?_⟩
        · rw [show depsOf B k = depsOf M k from by unfold depsOf jobOf; rw [j2]]
          exact hd
        · have : statusOf B d = statusOf M d := by
            rcases f2 d with ⟨hs, _⟩ | ⟨hp, _, _⟩
            · exact hs
            · rcases hbad with hb | hb <;> rw [hb] at hp <;> cases hp
          rw [this]; exact hbad
        · have hmsg : msgOf B d = msgOf M d := by
            unfold msgOf
            rcases f2 d with ⟨_, he⟩ | ⟨hp, _, _⟩
            · rw [he]
            · rcases hbad with hb | hb <;> rw [hb] at hp <;> cases hp
          have hname : nameOf B k = nameOf M k := by unfold nameOf jobOf; rw [j2]
          rw [he2, herr, hname, hmsg]
    · -- k was canceled in the second evolution; it was PENDING in M hence in A
      have hpA : statusOf A k = .PENDING := by
        rcases f1 k with ⟨hs, _⟩ | ⟨_, hc, _⟩
        · rw [← hs]; exact hp2
        · rw [hc] at hp2; cases hp2
      exact Or.inr ⟨hpA, hc2, d, hd, hbad, herr⟩

theorem CEvol_of_PropEvol {A B : Loader} (h : PropEvol A B) : CEvol A B := by
  obtain ⟨j1, p1, l1, d1, s1, e1, r1, f1⟩ := h
  refine ⟨j1, p1, l1, d1, s1, e1, r1, fun k => ?_⟩
  rcases f1 k with ⟨hs, he⟩ | ⟨hp, hc, d, hd, hbad, herr⟩
  · exact Or.inl ⟨hs, he⟩
  · exact Or.inr ⟨hp, hc, _, herr⟩

theorem CEvol_refl (L : Loader) : CEvol L L :=
  ⟨rfl, rfl, rfl, rfl, rfl, rfl, fun k hk => ⟨hk, rfl⟩, fun _ => Or.inl ⟨rfl, rfl⟩⟩

theorem CEvol_trans {A M B : Loader} (h1 : CEvol A M) (h2 : CEvol M B) : CEvol A B := by
  obtain ⟨j1, p1, l1, d1, s1, e1, r1, f1⟩ := h1
  obtain ⟨j2, p2, l2, d2, s2, e2, r2, f2⟩ := h2
  refine ⟨j2.trans j1, p2.trans p1, l2.trans l1, d2.trans d1, s2.trans s1, e2.trans e1, ?_, ?_⟩
  · intro k hk
    rcases r2 k hk with ⟨hkM, hsM⟩
    rcases r1 k hkM with ⟨hkA, hsA⟩
    exact ⟨hkA, hsM.trans hsA⟩
  · intro k
    rcases f2 k with ⟨hs2, he2⟩ | ⟨hp2, hc2, m, herr⟩
    · rcases f1 k with ⟨hs1, he1⟩ | ⟨hp1, hc1, m, herr⟩
      · exact Or.inl ⟨hs2.trans hs1, he2.trans he1⟩
      · exact Or.inr ⟨hp1, hs2.trans hc1, m, he2.trans herr⟩
    · have hpA : statusOf A k = .PENDING := by
        rcases f1 k with ⟨hs, _⟩ | ⟨_, hc, _⟩
        · rw [← hs]; exact hp2
        · rw [hc] at hp2; cases hp2
      exact Or.inr ⟨hpA, hc2, m, herr⟩

/-! One step of the propagation sweep evolves the loader by PropEvol. -/

theorem cpStep_propEvol (acc : Loader) (j : Nat)
    (hst : acc.status.length = acc.jobs.length)
    (herr : acc.err.length = acc.jobs.length)
    (hj : j < acc.jobs.length) : PropEvol acc (cpStep acc j) := by
  unfold cpStep
  by_cases hp : statusOf acc j = .PENDING
  · rw [if_pos hp]
    cases hbd : badDep acc j
    · exact PropEvol_refl acc
    · rename_i cause
      show PropEvol acc
        (setStatus acc j .CANCELED (some ⟨.CANCELED, cancelMsg (nameOf acc j) cause⟩))
      rcases badDep_some acc j cause hbd with ⟨d, hd, hbad, hcause⟩
      have hdj : d ≠ j := by
        intro he
        rw [he, hp] at hbad
        rcases hbad with hb | hb <;> cases hb
      refine ⟨rfl, rfl, rfl, rfl, setStatus_status_len _ _ _ _, setStatus_err_len _ _ _ _, ?_, ?_⟩
      · intro k hk
        rcases (mem_ready_setStatus acc j _ _ k).mp hk with ⟨hk1, hkj⟩
        exact ⟨hk1, statusOf_setStatus_ne acc _ _ (fun he => hkj he.symm)⟩
      · intro k
        by_cases hkj : k = j
        · subst hkj
          refine Or.inr ⟨hp, statusOf_setStatus_self acc _ _ (hst ▸ hj), d, hd, ?_, ?_⟩
          · rw [statusOf_setStatus_ne acc _ _ (Ne.symm hdj)]
            exact hbad
          · rw [errOf_setStatus_self acc _ _ (herr ▸ hj)]
            have hmsg : msgOf (setStatus acc k .CANCELED
                (some ⟨.CANCELED, cancelMsg (nameOf acc k) cause⟩)) d = msgOf acc d := by
              unfold msgOf
              rw [errOf_setStatus_ne acc _ _ (fun he => hdj he.symm)]
            rw [hmsg, ← hcause]
            rfl
        · exact Or.inl ⟨statusOf_setStatus_ne acc _ _ (fun he => hkj he.symm),
            errOf_setStatus_ne acc _ _ (fun he => hkj he.symm)⟩
  · rw [if_neg hp]
    exact PropEvol_refl acc

/-- Folding the propagation step over any in-range list evolves the loader
by PropEvol. -/
theorem foldl_cpStep_propEvol : ∀ (l : List Nat) (acc : Loader),
    acc.status.length = acc.jobs.length → acc.err.length = acc.jobs.length →
    (∀ j ∈ l, j < acc.jobs.length) → PropEvol acc (l.foldl cpStep acc) := by
  intro l
  induction l with
  | nil => intro acc _ _ _; exact PropEvol_refl acc
  | cons x xs ih =>
      intro acc hst herr hl
      have h1 : PropEvol acc (cpStep acc x) :=
        cpStep_propEvol acc x hst herr (hl x (List.mem_cons_self _ _))
      have hj := h1.1
      have hs := h1.2.2.2.2.1
      have he := h1.2.2.2.2.2.1
      have h2 : PropEvol (cpStep acc x) ((x :: xs).foldl cpStep acc) := by
        rw [List.foldl_cons]
        exact ih _ (by rw [hs, hj, hst]) (by rw [he, hj, herr])
          (fun j hjm => hj ▸ hl j (List.mem_cons_of_mem _ hjm))
      exact PropEvol_trans h1 h2

theorem cancelPass_propEvol (L : Loader)
    (hst : L.status.length = L.jobs.length)
    (herr : L.err.length = L.jobs.length) : PropEvol L (cancelPass L) :=
  foldl_cpStep_propEvol _ L hst herr (fun j hj => List.mem_range.mp hj)

theorem iterate_cancelPass_propEvol (k : Nat) : ∀ (L : Loader),
    L.status.length = L.jobs.length → L.err.length = L.jobs.length →
    PropEvol L (cancelPass^[k] L) := by
  induction k with
  | zero => intro L _ _; exact PropEvol_refl L
  | succ m ih =>
      intro L hst herr
      rw [Function.iterate_succ_apply]
      have h1 := cancelPass_propEvol L hst herr
      have hj := h1.1
      have hs := h1.2.2.2.2.1
      have he := h1.2.2.2.2.2.1
      exact PropEvol_trans h1 (ih _ (by rw [hs, hj, hst]) (by rw [he, hj, herr]))

theorem propagateCancel_propEvol (L : Loader)
    (hst : L.status.length = L.jobs.length)
    (herr : L.err.length = L.jobs.length) : PropEvol L (propagateCancel L) :=
  iterate_cancelPass_propEvol _ L hst herr

/-! Termination of the propagation fixpoint: each non-identity sweep
strictly decreases the number of PENDING jobs, so after enough sweeps the
sweep is the identity, which means no PENDING job has a FAILED or CANCELED
dependency. -/

theorem cpStep_pend (acc : Loader) (j : Nat) (hj : j < acc.status.length) :
    cpStep acc j = acc ∨ pendingCount (cpStep acc j) < pendingCount acc := by
  unfold cpStep
  by_cases hp : statusOf acc j = .PENDING
  · rw [if_pos hp]
    cases hbd : badDep acc j
    · exact Or.inl rfl
    · rename_i cause
      refine Or.inr ?_
      show pendC (acc.status.set j .CANCELED) < pendC acc.status
      have hgj : acc.status[j] = .PENDING := by
        rw [← getD_eq_getElem acc.status .PENDING hj]
        exact hp
      unfold pendC
      rw [List.countP_set _ _ _ _ hj, hgj]
      have hpos : 0 < acc.status.countP (fun s => decide (s = LoadStatus.PENDING)) :=
        List.countP_pos_iff.mpr ⟨acc.status[j], List.getElem_mem hj, by rw [hgj]; simp⟩
      simp only [decide_eq_true_eq]
      rw [if_pos trivial, if_neg (by intro h; cases h)]
      omega
  · rw [if_neg hp]
    exact Or.inl rfl

theorem cpStep_status_len (acc : Loader) (j : Nat) :
    (cpStep acc j).status.length = acc.status.length := by
  unfold cpStep
  by_cases hp : statusOf acc j = .PENDING
  · rw [if_pos hp]
    cases badDep acc j
    · rfl
    · exact setStatus_status_len _ _ _ _
  · rw [if_neg hp]

theorem cpStep_jobs (acc : Loader) (j : Nat) : (cpStep acc j).jobs = acc.jobs := by
  unfold cpStep
  by_cases hp : statusOf acc j = .PENDING
  · rw [if_pos hp]
    cases badDep acc j
    · rfl
    · rfl
  · rw [if_neg hp]

theorem foldl_cpStep_pend_le : ∀ (l : List Nat) (acc : Loader),
    (∀ j ∈ l, j < acc.status.length) →
    pendingCount (l.foldl cpStep acc) ≤ pendingCount acc := by
  intro l
  induction l with
  | nil => intro acc _; exact le_refl _
  | cons x xs ih =>
      intro acc hl
      rw [List.foldl_cons]
      have hlen := cpStep_status_len acc x
      have h1 : pendingCount (xs.foldl cpStep (cpStep acc x)) ≤ pendingCount (cpStep acc x) :=
        ih _ (fun j hj => hlen ▸ hl j (List.mem_cons_of_mem _ hj))
      rcases cpStep_pend acc x (hl x (List.mem_cons_self _ _)) with heq | hlt
      · rw [heq] at h1 ⊢; exact h1
      · exact le_trans h1 (le_of_lt hlt)

theorem foldl_cpStep_eq_or_lt : ∀ (l : List Nat) (acc : Loader),
    (∀ j ∈ l, j < acc.status.length) →
    l.foldl cpStep acc = acc ∨ pendingCount (l.foldl cpStep acc) < pendingCount acc := by
  intro l
  induction l with
  | nil => intro acc _; exact Or.inl rfl
  | cons x xs ih =>
      intro acc hl
      rw [List.foldl_cons]
      have hlen := cpStep_status_len acc x
      rcases cpStep_pend acc x (hl x (List.mem_cons_self _ _)) with heq | hlt
      · rw [heq]
        exact ih _ (fun j hj => hl j (List.mem_cons_of_mem _ hj))
      · refine Or.inr (lt_of_le_of_lt ?_ hlt)
        exact foldl_cpStep_pend_le _ _ (fun j hj => hlen ▸ hl j (List.mem_cons_of_mem _ hj))

theorem foldl_cpStep_fix : ∀ (l : List Nat) (acc : Loader),
    (∀ j ∈ l, j < acc.status.length) →
    l.foldl cpStep acc = acc → ∀ j ∈ l, cpStep acc j = acc := by
  intro l
  induction l with
  | nil => intro acc _ _ j hj; cases hj
  | cons x xs ih =>
      intro acc hl hfix j hj
      rw [List.foldl_cons] at hfix
      have hlen := cpStep_status_len acc x
      have hx : cpStep acc x = acc := by
        rcases cpStep_pend acc x (hl x (List.mem_cons_self _ _)) with heq | hlt
        · exact heq
        · exfalso
          have h1 : pendingCount (xs.foldl cpStep (cpStep acc x)) ≤ pendingCount (cpStep acc x) :=
            foldl_cpStep_pend_le _ _ (fun k hk => hlen ▸ hl k (List.mem_cons_of_mem _ hk))
          rw [hfix] at h1
          exact absurd (lt_of_le_of_lt h1 hlt) (lt_irrefl _)
      rcases List.mem_cons.mp hj with hjx | hjxs
      · subst hjx; exact hx
      · rw [hx] at hfix
        exact ih _ (fun k hk => hl k (List.mem_cons_of_mem _ hk)) hfix j hjxs

/-- A fixpoint of the sweep has no PENDING job with a FAILED or CANCELED
dependency. -/
theorem cancelPass_fix_nbp (L : Loader) (hst : L.status.length = L.jobs.length)
    (hfix : cancelPass L = L) : NoBadDepPending L := by
  intro j hp d hd hbad
  by_cases hj : j < L.jobs.length
  · have hstep : cpStep L j = L :=
      foldl_cpStep_fix _ L (fun k hk => hst ▸ List.mem_range.mp hk) hfix j
        (List.mem_range.mpr hj)
    unfold cpStep at hstep
    rw [if_pos hp] at hstep
    cases hbd : badDep L j <;> rw [hbd] at hstep
    · exact absurd hbad ((badDep_none_iff L j).mp hbd d hd)
    · rename_i cause
      have hstep2 : setStatus L j .CANCELED
          (some ⟨.CANCELED, cancelMsg (nameOf L j) cause⟩) = L := hstep
      have hcp : statusOf (setStatus L j .CANCELED
          (some ⟨.CANCELED, cancelMsg (nameOf L j) cause⟩)) j = statusOf L j := by
        rw [hstep2]
      rw [statusOf_setStatus_self L _ _ (hst ▸ hj), hp] at hcp
      cases hcp
  · have : depsOf L j = [] := by
      unfold depsOf jobOf
      rw [List.getD_eq_default _ _ (Nat.le_of_not_lt hj)]
      exact default_jobSpec_deps
    rw [this] at hd
    cases hd

theorem iterate_cancelPass_fix : ∀ (k : Nat) (M : Loader),
    M.status.length = M.jobs.length → M.err.length = M.jobs.length →
    pendingCount M < k →
    cancelPass (cancelPass^[k] M) = cancelPass^[k] M := by
  intro k
  induction k with
  | zero => intro M _ _ h; cases h
  | succ m ih =>
      intro M hst herr hpend
      by_cases hfix : cancelPass M = M
      · rw [Function.iterate_fixed hfix]
        exact hfix
      · have hev := cancelPass_propEvol M hst herr
        have hlt : pendingCount (cancelPass M) < pendingCount M := by
          rcases foldl_cpStep_eq_or_lt _ M (fun j hj => hst ▸ List.mem_range.mp hj) with heq | h
        -- the fold is cancelPass
          · exact absurd heq hfix
          · exact h
        rw [Function.iterate_succ_apply]
        exact ih (cancelPass M)
          (by rw [hev.2.2.2.2.1, hev.1, hst])
          (by rw [hev.2.2.2.2.2.1, hev.1, herr])
          (lt_of_lt_of_le hlt (Nat.lt_succ_iff.mp hpend))

/-- Cancellation propagation reaches a fixpoint of the sweep. -/
theorem propagateCancel_fix (L : Loader) (hst : L.status.length = L.jobs.length)
    (herr : L.err.length = L.jobs.length) :
    cancelPass (propagateCancel L) = propagateCancel L := by
  refine iterate_cancelPass_fix _ L hst herr ?_
  have h1 : pendingCount L ≤ L.status.length := List.countP_le_length _
  omega

/-- After propagation no PENDING job has a FAILED or CANCELED dependency. -/
theorem propagateCancel_nbp (L : Loader) (hst : L.status.length = L.jobs.length)
    (herr : L.err.length = L.jobs.length) : NoBadDepPending (propagateCancel L) := by
  have hev := propagateCancel_propEvol L hst herr
  exact cancelPass_fix_nbp _ (by rw [hev.2.2.2.2.1, hev.1, hst]) (propagateCancel_fix L hst herr)

/-! Preservation of the loader invariants. -/

theorem depsOf_of_jobs_eq {A B : Loader} (h : B.jobs = A.jobs) (k : Nat) :
    depsOf B k = depsOf A k := by
  unfold depsOf jobOf
  rw [h]

theorem LInv_of_CEvol {A B : Loader} (hA : LInv A) (h : CEvol A B) : LInv B := by
  obtain ⟨cj, cp, cl, cd, cs, ce, cr, cf⟩ := h
  have hdeps : ∀ k, depsOf B k = depsOf A k := depsOf_of_jobs_eq cj
  have hstOk : ∀ d, statusOf A d = .OK → statusOf B d = .OK := by
    intro d hok
    rcases cf d with ⟨hs, _⟩ | ⟨hpend, _, _⟩
    · rw [hs, hok]
    · rw [hpend] at hok; cases hok
  refine ⟨?_, ?_, ?_, ?_, ?_, ?_, ?_, ?_, ?_, ?_, ?_⟩
  · rw [cs, cj]; exact hA.len_status
  · rw [ce, cj]; exact hA.len_err
  · intro j hj
    rw [cj]
    exact hA.ready_lt j (cr j hj).1
  · intro j hj
    rw [(cr j hj).2]
    exact hA.ready_pending j (cr j hj).1
  · intro j hj d hd
    rw [hdeps j] at hd
    exact hstOk d (hA.ready_deps_ok j (cr j hj).1 d hd)
  · intro j hj
    rw [cj]
    exact hA.done_lt j (cd ▸ hj)
  · intro j hj
    rw [cd]
    rcases cf j with ⟨hs, _⟩ | ⟨_, hc, _⟩
    · exact hA.done_terminal j (by rw [← hs]; exact hj)
    · rw [hc] at hj
      rcases hj with hj | hj <;> cases hj
  · intro j hj d hd
    rw [hdeps j] at hd
    exact hstOk d (hA.done_deps_ok j (cd ▸ hj) d hd)
  · intro i hi d hd
    rw [cd] at hi ⊢
    rw [cd, hdeps] at hd
    exact hA.topo i hi d hd
  · intro j hj
    rcases cf j with ⟨hs, he⟩ | ⟨_, _, m, he⟩
    · rw [he]
      exact hA.err_canceled j (by rw [← hs]; exact hj)
    · exact ⟨m, he⟩
  · intro j hj
    rcases cf j with ⟨hs, he⟩ | ⟨_, hc, _⟩
    · rw [he]
      exact hA.err_failed j (by rw [← hs]; exact hj)
    · rw [hc] at hj; cases hj

theorem statusOf_initLoader (jobs : List JobSpec) (j : Nat) :
    statusOf (initLoader jobs) j = .PENDING := by
  unfold statusOf initLoader
  by_cases hj : j < jobs.length
  · rw [getD_eq_getElem _ _ (by simpa using hj)]
    simp
  · rw [List.getD_eq_default _ _ (by simpa using Nat.le_of_not_lt hj)]

theorem LInv_initLoader (jobs : List JobSpec) : LInv (initLoader jobs) := by
  refine ⟨by simp [initLoader], by simp [initLoader], ?_, ?_, ?_, ?_, ?_, ?_, ?_, ?_, ?_⟩
  · intro j hj
    simp only [initLoader, List.mem_filter, List.mem_reverse, List.mem_range] at hj
    exact hj.1
  · intro j _
    exact statusOf_initLoader jobs j
  · intro j hj d hd
    simp only [initLoader, List.mem_filter, List.mem_reverse, List.mem_range] at hj
    have : depsOf (initLoader jobs) j = [] := by
      unfold depsOf jobOf
      exact List.isEmpty_iff.mp (by simpa using hj.2)
    rw [this] at hd
    cases hd
  · intro j hj
    cases hj
  · intro j hj
    rcases hj with hj | hj <;> rw [statusOf_initLoader jobs j] at hj <;> cases hj
  · intro j hj
    cases hj
  · intro i hi d hd
    cases hi
  · intro j hj
    rw [statusOf_initLoader jobs j] at hj
    cases hj
  · intro j hj
    rw [statusOf_initLoader jobs j] at hj
    cases hj

theorem NBP_initLoader (jobs : List JobSpec) : NoBadDepPending (initLoader jobs) := by
  intro j _ d _ hbad
  rw [statusOf_initLoader jobs d] at hbad
  rcases hbad with hb | hb <;> cases hb

/-! Frames of the intermediate stages of a worker step. -/

theorem priFold_frame : ∀ (l : List (Nat × Int)) (M : Loader),
    (l.foldl (fun acc tp => prioritizeJob acc tp.1 tp.2) M).jobs = M.jobs ∧
    (l.foldl (fun acc tp => prioritizeJob acc tp.1 tp.2) M).status = M.status ∧
    (l.foldl (fun acc tp => prioritizeJob acc tp.1 tp.2) M).err = M.err ∧
    (l.foldl (fun acc tp => prioritizeJob acc tp.1 tp.2) M).ready = M.ready ∧
    (l.foldl (fun acc tp => prioritizeJob acc tp.1 tp.2) M).done = M.done := by
  intro l
  induction l with
  | nil => intro M; exact ⟨rfl, rfl, rfl, rfl, rfl⟩
  | cons x xs ih =>
      intro M
      rw [List.foldl_cons]
      exact ih (prioritizeJob M x.1 x.2)

theorem stage_jobs (hook : Nat → List (Nat × Int)) (L : Loader) (j : Nat) :
    (stage hook L j).jobs = L.jobs :=
  (priFold_frame (hook j) (popReady L j)).1

theorem stage_status (hook : Nat → List (Nat × Int)) (L : Loader) (j : Nat) :
    (stage hook L j).status = L.status :=
  (priFold_frame (hook j) (popReady L j)).2.1

theorem stage_err (hook : Nat → List (Nat × Int)) (L : Loader) (j : Nat) :
    (stage hook L j).err = L.err :=
  (priFold_frame (hook j) (popReady L j)).2.2.1

theorem stage_ready (hook : Nat → List (Nat × Int)) (L : Loader) (j : Nat) :
    (stage hook L j).ready = L.ready.filter (fun k => decide (k ≠ j)) :=
  (priFold_frame (hook j) (popReady L j)).2.2.2.1

theorem stage_done (hook : Nat → List (Nat × Int)) (L : Loader) (j : Nat) :
    (stage hook L j).done = L.done ++ [j] := by
  show (applyHook hook (popReady L j) j).done ++ [j] = L.done ++ [j]
  unfold applyHook
  rw [(priFold_frame (hook j) (popReady L j)).2.2.2.2]
  rfl

theorem statusOf_stage (hook : Nat → List (Nat × Int)) (L : Loader) (j k : Nat) :
    statusOf (stage hook L j) k = statusOf L k := by
  unfold statusOf
  rw [stage_status]

theorem errOf_stage (hook : Nat → List (Nat × Int)) (L : Loader) (j k : Nat) :
    errOf (stage hook L j) k = errOf L k := by
  unfold errOf
  rw [stage_err]

theorem depsOf_stage (hook : Nat → List (Nat × Int)) (L : Loader) (j k : Nat) :
    depsOf (stage hook L j) k = depsOf L k :=
  depsOf_of_jobs_eq (stage_jobs hook L j) k

/-- The invariants hold at the intermediate stage of executing a popped
ready job. -/
theorem LInv_stage (hook : Nat → List (Nat × Int)) (L : Loader) (j : Nat)
    (hInv : LInv L) (hj : j ∈ L.ready) : LInv (stage hook L j) := by
  have hjlt := hInv.ready_lt j hj
  have hdeps := hInv.ready_deps_ok j hj
  have hmem : ∀ k, k ∈ (stage hook L j).ready → k ∈ L.ready := by
    intro k hk
    rw [stage_ready] at hk
    exact (List.mem_filter.mp hk).1
  refine ⟨?_, ?_, ?_, ?_, ?_, ?_, ?_, ?_, ?_, ?_, ?_⟩
  · rw [stage_status, stage_jobs]; exact hInv.len_status
  · rw [stage_err, stage_jobs]; exact hInv.len_err
  · intro k hk
    rw [stage_jobs]
    exact hInv.ready_lt k (hmem k hk)
  · intro k hk
    rw [statusOf_stage]
    exact hInv.ready_pending k (hmem k hk)
  · intro k hk d hd
    rw [statusOf_stage]
    rw [depsOf_stage] at hd
    exact hInv.ready_deps_ok k (hmem k hk) d hd
  · intro k hk
    rw [stage_done] at hk
    rw [stage_jobs]
    rcases List.mem_append.mp hk with hk | hk
    · exact hInv.done_lt k hk
    · rw [List.mem_singleton.mp hk]
      exact hjlt
  · intro k hk
    rw [statusOf_stage] at hk
    rw [stage_done]
    exact List.mem_append_left _ (hInv.done_terminal k hk)
  · intro k hk d hd
    rw [statusOf_stage]
    rw [depsOf_stage] at hd
    rw [stage_done] at hk
    rcases List.mem_append.mp hk with hk | hk
    · exact hInv.done_deps_ok k hk d hd
    · rw [List.mem_singleton.mp hk] at hd
      exact hdeps d hd
  · intro i hi d hd
    rw [stage_done] at hi hd ⊢
    rw [depsOf_stage] at hd
    rw [List.length_append, List.length_singleton] at hi
    by_cases hil : i < L.done.length
    · rw [List.getD_append _ _ _ _ hil] at hd
      rw [List.take_append_of_le_length (le_of_lt hil)]
      exact hInv.topo i hil d hd
    · have hieq : i = L.done.length := by omega
      subst hieq
      rw [List.getD_append_right _ _ _ _ (le_refl _)] at hd
      simp only [Nat.sub_self] at hd
      have hdj : d ∈ depsOf L j := by
        simpa using hd
      rw [List.take_left]
      exact hInv.done_terminal d (Or.inl (hdeps d hdj))
  · intro k hk
    rw [statusOf_stage] at hk
    rw [errOf_stage]
    exact hInv.err_canceled k hk
  · intro k hk
    rw [statusOf_stage] at hk
    rw [errOf_stage]
    exact hInv.err_failed k hk

/-! Preservation through the worker post-run handling. -/

theorem finishOk_done (M : Loader) (j : Nat) : (finishOk M j).done = M.done := rfl

theorem finishOk_jobs (M : Loader) (j : Nat) : (finishOk M j).jobs = M.jobs := rfl

theorem mem_finishOk_ready (M : Loader) (j k : Nat) :
    k ∈ (finishOk M j).ready →
      (k ∈ M.ready ∧ k ≠ j) ∨
      (k ∈ dependentsOf M.jobs j ∧
        statusOf (setStatus M j .OK none) k = .PENDING ∧
        (∀ d ∈ depsOf M k, statusOf (setStatus M j .OK none) d = .OK)) := by
  intro hk
  unfold finishOk at hk
  rcases List.mem_append.mp hk with hk | hk
  · exact Or.inl ((mem_ready_setStatus M j _ _ k).mp hk)
  · rcases List.mem_filter.mp hk with ⟨hk1, hk2⟩
    rw [List.mem_reverse] at hk1
    rcases Bool.and_eq_true_iff.mp hk2 with ⟨hk3, _⟩
    rcases Bool.and_eq_true_iff.mp hk3 with ⟨hp, hall⟩
    refine Or.inr ⟨hk1, of_decide_eq_true hp, ?_⟩
    intro d hd
    have := List.all_eq_true.mp hall d hd
    exact of_decide_eq_true this

theorem statusOf_finishOk (M : Loader) (j k : Nat) :
    statusOf (finishOk M j) k = statusOf (setStatus M j .OK none) k := rfl

theorem errOf_finishOk (M : Loader) (j k : Nat) (hkj : k ≠ j) :
    errOf (finishOk M j) k = errOf M k := by
  show errOf (setStatus M j .OK none) k = errOf M k
  exact errOf_setStatus_ne M _ _ (fun he => hkj he.symm)

theorem LInv_finishOk (M : Loader) (j : Nat) (hInv : LInv M)
    (hjlt : j < M.jobs.length) (hjdone : j ∈ M.done) : LInv (finishOk M j) := by
  have hjst : j < M.status.length := hInv.len_status ▸ hjlt
  have hBj : statusOf (setStatus M j .OK none) j = .OK := statusOf_setStatus_self M _ _ hjst
  have hOk : ∀ d, statusOf M d = .OK → statusOf (setStatus M j .OK none) d = .OK := by
    intro d hd
    by_cases hdj : d = j
    · subst hdj; exact hBj
    · rw [statusOf_setStatus_ne M _ _ (fun he => hdj he.symm)]; exact hd
  have hNe : ∀ k, k ≠ j →
      statusOf (setStatus M j .OK none) k = statusOf M k := by
    intro k hk
    exact statusOf_setStatus_ne M _ _ (fun he => hk he.symm)
  refine ⟨?_, ?_, ?_, ?_, ?_, ?_, ?_, ?_, ?_, ?_, ?_⟩
  · show (setStatus M j .OK none).status.length = M.jobs.length
    rw [setStatus_status_len]; exact hInv.len_status
  · show (setStatus M j .OK none).err.length = M.jobs.length
    rw [setStatus_err_len]; exact hInv.len_err
  · intro k hk
    rcases mem_finishOk_ready M j k hk with ⟨hk1, _⟩ | ⟨hk1, _, _⟩
    · exact hInv.ready_lt k hk1
    · unfold dependentsOf at hk1
      exact List.mem_range.mp (List.mem_filter.mp hk1).1
  · intro k hk
    rcases mem_finishOk_ready M j k hk with ⟨hk1, hk2⟩ | ⟨_, hk2, _⟩
    · rw [statusOf_finishOk, hNe k hk2]
      exact hInv.ready_pending k hk1
    · exact hk2
  · intro k hk d hd
    have hdM : d ∈ depsOf M k := hd
    rcases mem_finishOk_ready M j k hk with ⟨hk1, _⟩ | ⟨_, _, hk3⟩
    · exact hOk d (hInv.ready_deps_ok k hk1 d hdM)
    · exact hk3 d hdM
  · intro k hk
    rw [finishOk_done] at hk
    exact hInv.done_lt k hk
  · intro k hk
    rw [statusOf_finishOk] at hk
    rw [finishOk_done]
    by_cases hkj : k = j
    · subst hkj; exact hjdone
    · rw [hNe k hkj] at hk
      exact hInv.done_terminal k hk
  · intro k hk d hd
    rw [finishOk_done] at hk
    exact hOk d (hInv.done_deps_ok k hk d hd)
  · exact hInv.topo
  · intro k hk
    rw [statusOf_finishOk] at hk
    by_cases hkj : k = j
    · subst hkj
      rw [hBj] at hk
      cases hk
    · rw [hNe k hkj] at hk
      rw [errOf_finishOk M j k hkj]
      exact hInv.err_canceled k hk
  · intro k hk
    rw [statusOf_finishOk] at hk
    by_cases hkj : k = j
    · subst hkj
      rw [hBj] at hk
      cases hk
    · rw [hNe k hkj] at hk
      rw [errOf_finishOk M j k hkj]
      exact hInv.err_failed k hk

theorem LInv_finishFailed (M : Loader) (j : Nat) (m : String) (hInv : LInv M)
    (hjlt : j < M.jobs.length) (hjdone : j ∈ M.done)
    (hjpend : statusOf M j = .PENDING) : LInv (finishFailed M j m) := by
  have hjst : j < M.status.length := hInv.len_status ▸ hjlt
  have hjer : j < M.err.length := hInv.len_err ▸ hjlt
  set e : Option Err := some ⟨.FAILED, failMsg (nameOf M j) m⟩ with he
  have hBj : statusOf (setStatus M j .FAILED e) j = .FAILED := statusOf_setStatus_self M _ _ hjst
  have hNe : ∀ k, k ≠ j → statusOf (setStatus M j .FAILED e) k = statusOf M k := by
    intro k hk
    exact statusOf_setStatus_ne M _ _ (fun h2 => hk h2.symm)
  have hOk : ∀ d, statusOf M d = .OK → statusOf (setStatus M j .FAILED e) d = .OK := by
    intro d hd
    have hdj : d ≠ j := by
      intro h2
      rw [h2, hjpend] at hd
      cases hd
    rw [hNe d hdj]; exact hd
  have hB : LInv (setStatus M j .FAILED e) := by
    refine ⟨?_, ?_, ?_, ?_, ?_, ?_, ?_, ?_, ?_, ?_, ?_⟩
    · rw [setStatus_status_len, setStatus_jobs]; exact hInv.len_status
    · rw [setStatus_err_len, setStatus_jobs]; exact hInv.len_err
    · intro k hk
      rw [setStatus_jobs]
      exact hInv.ready_lt k ((mem_ready_setStatus M j _ _ k).mp hk).1
    · intro k hk
      rcases (mem_ready_setStatus M j _ _ k).mp hk with ⟨hk1, hk2⟩
      rw [hNe k hk2]
      exact hInv.ready_pending k hk1
    · intro k hk d hd
      rcases (mem_ready_setStatus M j _ _ k).mp hk with ⟨hk1, _⟩
      exact hOk d (hInv.ready_deps_ok k hk1 d hd)
    · intro k hk
      rw [setStatus_done] at hk
      rw [setStatus_jobs]
      exact hInv.done_lt k hk
    · intro k hk
      rw [setStatus_done]
      by_cases hkj : k = j
      · subst hkj; exact hjdone
      · rw [hNe k hkj] at hk
        exact hInv.done_terminal k hk
    · intro k hk d hd
      rw [setStatus_done] at hk
      exact hOk d (hInv.done_deps_ok k hk d hd)
    · exact hInv.topo
    · intro k hk
      by_cases hkj : k = j
      · subst hkj
        rw [hBj] at hk
        cases hk
      · rw [hNe k hkj] at hk
        rw [errOf_setStatus_ne M _ _ (fun h2 => hkj h2.symm)]
        exact hInv.err_canceled k hk
    · intro k hk
      by_cases hkj : k = j
      · refine ⟨failMsg (nameOf M j) m, ?_⟩
        rw [hkj, errOf_setStatus_self M _ _ hjer]
      · rw [hNe k hkj] at hk
        rw [errOf_setStatus_ne M _ _ (fun h2 => hkj h2.symm)]
        exact hInv.err_failed k hk
  exact LInv_of_CEvol hB (CEvol_of_PropEvol (propagateCancel_propEvol _ hB.len_status hB.len_err))

/-! No PENDING job keeps a FAILED or CANCELED dependency across a worker
step. -/

theorem NBP_stage (hook : Nat → List (Nat × Int)) (L : Loader) (j : Nat)
    (h : NoBadDepPending L) : NoBadDepPending (stage hook L j) := by
  intro k hk d hd hbad
  rw [statusOf_stage] at hk hbad
  rw [depsOf_stage] at hd
  exact h k hk d hd hbad

theorem NBP_finishOk (M : Loader) (j : Nat) (hInv : LInv M) (h : NoBadDepPending M)
    (hjlt : j < M.jobs.length) : NoBadDepPending (finishOk M j) := by
  have hjst : j < M.status.length := hInv.len_status ▸ hjlt
  have hBj : statusOf (setStatus M j .OK none) j = .OK := statusOf_setStatus_self M _ _ hjst
  intro k hk d hd hbad
  rw [statusOf_finishOk] at hk
  rw [statusOf_finishOk] at hbad
  have hkj : k ≠ j := by
    intro h2
    rw [h2, hBj] at hk
    cases hk
  have hdj : d ≠ j := by
    intro h2
    rw [h2, hBj] at hbad
    rcases hbad with hb | hb <;> cases hb
  rw [statusOf_setStatus_ne M _ _ (fun h2 => hkj h2.symm)] at hk
  rw [statusOf_setStatus_ne M _ _ (fun h2 => hdj h2.symm)] at hbad
  exact h k hk d hd hbad

theorem NBP_execJob (hook : Nat → List (Nat × Int)) (L : Loader) (j : Nat)
    (hInv : LInv L) (hnbp : NoBadDepPending L) (hj : j ∈ L.ready) :
    NoBadDepPending (execJob hook L j) := by
  have hS := LInv_stage hook L j hInv hj
  have hjlt : j < (stage hook L j).jobs.length := by
    rw [stage_jobs]
    exact hInv.ready_lt j hj
  unfold execJob
  cases (jobOf L j).fails
  · exact NBP_finishOk _ j hS (NBP_stage hook L j hnbp) hjlt
  · rename_i m
    show NoBadDepPending (finishFailed (stage hook L j) j m)
    unfold finishFailed
    refine propagateCancel_nbp _ ?_ ?_
    · rw [setStatus_status_len, setStatus_jobs]
      exact hS.len_status
    · rw [setStatus_err_len, setStatus_jobs]
      exact hS.len_err

theorem LInv_execJob (hook : Nat → List (Nat × Int)) (L : Loader) (j : Nat)
    (hInv : LInv L) (hj : j ∈ L.ready) : LInv (execJob hook L j) := by
  have hS := LInv_stage hook L j hInv hj
  have hjlt : j < (stage hook L j).jobs.length := by
    rw [stage_jobs]
    exact hInv.ready_lt j hj
  have hjdone : j ∈ (stage hook L j).done := by
    rw [stage_done]
    exact List.mem_append_right _ (List.mem_singleton.mpr rfl)
  unfold execJob
  cases (jobOf L j).fails
  · exact LInv_finishOk _ j hS hjlt hjdone
  · rename_i m
    refine LInv_finishFailed _ j m hS hjlt hjdone ?_
    rw [statusOf_stage]
    exact hInv.ready_pending j hj

theorem runStep_inv (hook : Nat → List (Nat × Int)) (L L' : Loader)
    (hInv : LInv L) (hnbp : NoBadDepPending L) (h : runStep hook L = some L') :
    LInv L' ∧ NoBadDepPending L' := by
  unfold runStep at h
  cases hpick : pickBest L L.ready <;> rw [hpick] at h
  · cases h
  · rename_i j
    have hj : j ∈ L.ready := pickBest_mem L L.ready j hpick
    cases h
    exact ⟨LInv_execJob hook L j hInv hj, NBP_execJob hook L j hInv hnbp hj⟩

theorem run_inv (hook : Nat → List (Nat × Int)) : ∀ (fuel : Nat) (L : Loader),
    LInv L → NoBadDepPending L →
    LInv (run hook fuel L) ∧ NoBadDepPending (run hook fuel L) := by
  intro fuel
  induction fuel with
  | zero => intro L h1 h2; exact ⟨h1, h2⟩
  | succ n ih =>
      intro L h1 h2
      have hrun : run hook (n + 1) L =
          (match runStep hook L with | none => L | some L1 => run hook n L1) := rfl
      rw [hrun]
      cases hstep : runStep hook L
      · exact ⟨h1, h2⟩
      · rename_i L1
        rcases runStep_inv hook L L1 h1 h2 hstep with ⟨h3, h4⟩
        exact ih L1 h3 h4

/-- C1. Static priorities with a single worker: on the scenario 5 DAG the
jobs execute in exactly the order A, E, D, F, G, H, C, B (indices 0, 4, 3,
5, 6, 7, 2, 1; the log also shows the effective priorities the
StaticPriorities test asserts). In general, for every job graph and every
hook, the single-worker execution order is a topological order (every
executed job appears after all of its dependencies), and every dequeue
returns a ready job of maximal effective priority, the earliest enqueued
among the maximal ones (FIFO tie-break). -/
theorem c1_static_priorities :
    (run noHook 8 (initLoader scen5jobs)).done = [0, 4, 3, 5, 6, 7, 2, 1] ∧
    (run noHook 8 (initLoader scen5jobs)).log =
      [("A", 9), ("E", 9), ("D", 9), ("F", 9), ("G", 9), ("H", 9), ("C", 4), ("B", 3)] ∧
    (∀ (jobs : List JobSpec) (hook : Nat → List (Nat × Int)) (fuel : Nat),
      TopoOrder (run hook fuel (initLoader jobs))) ∧
    (∀ (L : Loader) (l : List Nat) (j : Nat), pickBest L l = some j →
      j ∈ l ∧ (∀ k ∈ l, effPrio L k ≤ effPrio L j) ∧
      ∃ l1 l2, l = l1 ++ j :: l2 ∧ ∀ k ∈ l1, effPrio L k < effPrio L j) :=
  ⟨by decide, by decide,
   fun jobs hook fuel =>
     (run_inv hook fuel (initLoader jobs) (LInv_initLoader jobs) (NBP_initLoader jobs)).1.topo,
   fun L l j h =>
     ⟨pickBest_mem L l j h, pickBest_is_max L l j h, pickBest_first_max L l j h⟩⟩

/-- Witness for c1_static_priorities: the dequeue clause applied at the
initial state of scenario 5, whose ready queue holds exactly job A
(index 0). -/
theorem c1_static_priorities_witness :
    pickBest (initLoader scen5jobs) (initLoader scen5jobs).ready = some 0 ∧
    (0 ∈ (initLoader scen5jobs).ready ∧
      (∀ k ∈ (initLoader scen5jobs).ready,
        effPrio (initLoader scen5jobs) k ≤ effPrio (initLoader scen5jobs) 0) ∧
      ∃ l1 l2, (initLoader scen5jobs).ready = l1 ++ 0 :: l2 ∧
        ∀ k ∈ l1, effPrio (initLoader scen5jobs) k < effPrio (initLoader scen5jobs) 0) :=
  ⟨by decide,
   c1_static_priorities.2.2.2 (initLoader scen5jobs) (initLoader scen5jobs).ready 0 (by decide)⟩

/-! Consequences of the invariants: a job with a FAILED or CANCELED
dependency is CANCELED. -/

theorem bad_dep_canceled (L : Loader) (hInv : LInv L) (hnbp : NoBadDepPending L)
    (j d : Nat) (hd : d ∈ depsOf L j) (hbad : Bad (statusOf L d)) :
    statusOf L j = .CANCELED := by
  cases hst : statusOf L j
  · exact absurd hbad (hnbp j hst d hd)
  · have hdone := hInv.done_terminal j (Or.inl hst)
    have hok := hInv.done_deps_ok j hdone d hd
    rw [hok] at hbad
    rcases hbad with hb | hb <;> cases hb
  · have hdone := hInv.done_terminal j (Or.inr hst)
    have hok := hInv.done_deps_ok j hdone d hd
    rw [hok] at hbad
    rcases hbad with hb | hb <;> cases hb
  · rfl

theorem bad_dep_canceled_trans (L : Loader) (hInv : LInv L) (hnbp : NoBadDepPending L)
    (d j : Nat) (h : Relation.TransGen (fun a b => EdgeTo L.jobs b a) d j)
    (hbad : Bad (statusOf L d)) : statusOf L j = .CANCELED := by
  induction h with
  | single h1 => exact bad_dep_canceled L hInv hnbp _ d h1 hbad
  | tail _ hbc ih =>
      exact bad_dep_canceled L hInv hnbp _ _ hbc (Or.inr ih)

theorem waitJob_canceled (L : Loader) (hInv : LInv L) (j : Nat)
    (h : statusOf L j = .CANCELED) :
    ∃ m, waitJob L j = some (.error ⟨.CANCELED, m⟩) := by
  rcases hInv.err_canceled j h with ⟨m, he⟩
  refine ⟨m, ?_⟩
  unfold waitJob
  rw [h, he]
  rfl

theorem waitJob_failed (L : Loader) (hInv : LInv L) (j : Nat)
    (h : statusOf L j = .FAILED) :
    ∃ m, waitJob L j = some (.error ⟨.FAILED, m⟩) := by
  rcases hInv.err_failed j h with ⟨m, he⟩
  refine ⟨m, ?_⟩
  unfold waitJob
  rw [h, he]
  rfl

/-! Schedule preserves the invariants and establishes propagation. -/

theorem getD_map_const {α β : Type} (c : β) (l : List α) (i : Nat) :
    (l.map (fun _ => c)).getD i c = c := by
  by_cases h : i < l.length
  · rw [getD_eq_getElem _ _ (by simpa using h)]
    simp
  · rw [List.getD_eq_default _ _ (by simpa using Nat.le_of_not_lt h)]

theorem statusOf_lt_of_ne_pending (L : Loader) (d : Nat)
    (h : statusOf L d ≠ .PENDING) : d < L.status.length := by
  by_contra hc
  exact h (List.getD_eq_default _ _ (Nat.le_of_not_lt hc))

theorem scheduleJobs_ok_inv (L : Loader) (batch : List JobSpec) (L' : Loader)
    (hInv : LInv L) (h : scheduleJobs L batch = .ok L') :
    LInv L' ∧ NoBadDepPending L' := by
  unfold scheduleJobs at h
  cases hcc : cycleCheck (L.jobs ++ batch) <;> rw [hcc] at h
  swap
  · cases h
  set L1 : Loader := scheduleInsert L batch with hL1def
  have hstLow : ∀ k, k < L.status.length → statusOf L1 k = statusOf L k := by
    intro k hk
    exact List.getD_append _ _ _ _ hk
  have hstHigh : ∀ k, L.status.length ≤ k → statusOf L1 k = .PENDING := by
    intro k hk
    show (L.status ++ batch.map (fun _ => LoadStatus.PENDING)).getD k .PENDING = .PENDING
    rw [List.getD_append_right _ _ _ _ hk]
    exact getD_map_const _ _ _
  have hstEq : ∀ k, statusOf L1 k = statusOf L k ∨
      (statusOf L1 k = .PENDING ∧ statusOf L k = .PENDING) := by
    intro k
    by_cases hk : k < L.status.length
    · exact Or.inl (hstLow k hk)
    · refine Or.inr ⟨hstHigh k (Nat.le_of_not_lt hk), ?_⟩
      exact List.getD_eq_default _ _ (Nat.le_of_not_lt hk)
  have herrLow : ∀ k, k < L.err.length → errOf L1 k = errOf L k := by
    intro k hk
    exact List.getD_append _ _ _ _ hk
  have hdepsLow : ∀ k, k < L.jobs.length → depsOf L1 k = depsOf L k := by
    intro k hk
    unfold depsOf jobOf
    show ((L.jobs ++ batch).getD k default).deps = (L.jobs.getD k default).deps
    rw [List.getD_append _ _ _ _ hk]
  have hOkKeep : ∀ d, statusOf L d = .OK → statusOf L1 d = .OK := by
    intro d hd
    have hdl : d < L.status.length :=
      statusOf_lt_of_ne_pending L d (by rw [hd]; intro hc; cases hc)
    rw [hstLow d hdl]
    exact hd
  have hL1 : LInv L1 := by
    refine ⟨?_, ?_, ?_, ?_, ?_, ?_, ?_, ?_, ?_, ?_, ?_⟩
    · show (L.status ++ _).length = (L.jobs ++ batch).length
      simp [hInv.len_status]
    · show (L.err ++ _).length = (L.jobs ++ batch).length
      simp [hInv.len_err]
    · intro k hk
      show k < (L.jobs ++ batch).length
      have := hInv.ready_lt k hk
      rw [List.length_append]
      omega
    · intro k hk
      rw [hstLow k (hInv.len_status ▸ hInv.ready_lt k hk)]
      exact hInv.ready_pending k hk
    · intro k hk d hd
      rw [hdepsLow k (hInv.ready_lt k hk)] at hd
      exact hOkKeep d (hInv.ready_deps_ok k hk d hd)
    · intro k hk
      show k < (L.jobs ++ batch).length
      have := hInv.done_lt k hk
      rw [List.length_append]
      omega
    · intro k hk
      rcases hstEq k with heq | ⟨hpend, _⟩
      · rw [heq] at hk
        exact hInv.done_terminal k hk
      · rw [hpend] at hk
        rcases hk with hk | hk <;> cases hk
    · intro k hk d hd
      rw [hdepsLow k (hInv.done_lt k hk)] at hd
      exact hOkKeep d (hInv.done_deps_ok k hk d hd)
    · intro i hi d hd
      show d ∈ L.done.take i
      have hdone : L1.done = L.done := rfl
      rw [hdone] at hi hd
      have hmem : L.done.getD i 0 ∈ L.done := by
        rw [getD_eq_getElem _ _ hi]
        exact List.getElem_mem hi
      rw [hdepsLow _ (hInv.done_lt _ hmem)] at hd
      exact hInv.topo i hi d hd
    · intro k hk
      rcases hstEq k with heq | ⟨hpend, _⟩
      · rw [heq] at hk
        have hkl : k < L.status.length :=
          statusOf_lt_of_ne_pending L k (by rw [hk]; intro hc; cases hc)
        rw [herrLow k (by rw [hInv.len_err, ← hInv.len_status]; exact hkl)]
        exact hInv.err_canceled k hk
      · rw [hpend] at hk
        cases hk
    · intro k hk
      rcases hstEq k with heq | ⟨hpend, _⟩
      · rw [heq] at hk
        have hkl : k < L.status.length :=
          statusOf_lt_of_ne_pending L k (by rw [hk]; intro hc; cases hc)
        rw [herrLow k (by rw [hInv.len_err, ← hInv.len_status]; exact hkl)]
        exact hInv.err_failed k hk
      · rw [hpend] at hk
        cases hk
  have hL2 : LInv (propagateCancel L1) :=
    LInv_of_CEvol hL1 (CEvol_of_PropEvol (propagateCancel_propEvol L1 hL1.len_status hL1.len_err))
  have hnbp2 : NoBadDepPending (propagateCancel L1) :=
    propagateCancel_nbp L1 hL1.len_status hL1.len_err
  cases h
  constructor
  · refine ⟨hL2.len_status, hL2.len_err, ?_, ?_, ?_, hL2.done_lt, hL2.done_terminal,
      hL2.done_deps_ok, hL2.topo, hL2.err_canceled, hL2.err_failed⟩
    · intro k hk
      rcases List.mem_append.mp hk with hk | hk
      · exact hL2.ready_lt k hk
      · rcases List.mem_filter.mp hk with ⟨hk1, _⟩
        rw [List.mem_reverse] at hk1
        rcases List.mem_filter.mp hk1 with ⟨hk2, _⟩
        exact List.mem_range.mp hk2
    · intro k hk
      rcases List.mem_append.mp hk with hk | hk
      · exact hL2.ready_pending k hk
      · rcases List.mem_filter.mp hk with ⟨_, hc⟩
        rcases Bool.and_eq_true_iff.mp hc with ⟨hc1, _⟩
        rcases Bool.and_eq_true_iff.mp hc1 with ⟨hp, _⟩
        exact of_decide_eq_true hp
    · intro k hk d hd
      rcases List.mem_append.mp hk with hk | hk
      · exact hL2.ready_deps_ok k hk d hd
      · rcases List.mem_filter.mp hk with ⟨_, hc⟩
        rcases Bool.and_eq_true_iff.mp hc with ⟨hc1, _⟩
        rcases Bool.and_eq_true_iff.mp hc1 with ⟨_, hall⟩
        exact of_decide_eq_true (List.all_eq_true.mp hall d hd)
  · intro k hk d hd hbad
    exact hnbp2 k hk d hd hbad

/-! Message carrying lemmas. -/

theorem strContains_cancelMsg (n c : String) : strContains (cancelMsg n c) c := by
  show c.toList <:+: (("Load job " ++ n ++ " canceled: ") ++ c).toList
  refine ⟨("Load job " ++ n ++ " canceled: ").toList, [], ?_⟩
  simp [String.toList]

theorem strContains_failMsg (n c : String) : strContains (failMsg n c) c := by
  show c.toList <:+: (("Load job " ++ n ++ " failed: ") ++ c).toList
  refine ⟨("Load job " ++ n ++ " failed: ").toList, [], ?_⟩
  simp [String.toList]

/-- A job canceled during a propagation evolution cites a FAILED or
CANCELED dependency and its stored message carries that dependency's
message. -/
theorem propEvol_canceled_cites {A B : Loader} (h : PropEvol A B) (k : Nat)
    (hp : statusOf A k = .PENDING) (hc : statusOf B k = .CANCELED) :
    ∃ d ∈ depsOf B k, Bad (statusOf B d) ∧ strContains (msgOf B k) (msgOf B d) := by
  rcases h.2.2.2.2.2.2.2 k with ⟨hs, _⟩ | ⟨_, _, d, hd, hbad, herr⟩
  · rw [hs, hp] at hc
    cases hc
  · refine ⟨d, hd, hbad, ?_⟩
    have : msgOf B k = cancelMsg (nameOf B k) (msgOf B d) := by
      unfold msgOf
      rw [herr]
      rfl
    rw [this]
    exact strContains_cancelMsg _ _

/-- The status and stored error of the failed job itself after the failure
handling. -/
theorem finishFailed_err (M : Loader) (j : Nat) (m : String)
    (hst : M.status.length = M.jobs.length) (herr : M.err.length = M.jobs.length)
    (hj : j < M.jobs.length) :
    statusOf (finishFailed M j m) j = .FAILED ∧
    errOf (finishFailed M j m) j = some ⟨.FAILED, failMsg (nameOf M j) m⟩ := by
  set B := setStatus M j .FAILED (some ⟨.FAILED, failMsg (nameOf M j) m⟩) with hB
  have hBst : statusOf B j = .FAILED := statusOf_setStatus_self M _ _ (hst ▸ hj)
  have hBerr : errOf B j = some ⟨.FAILED, failMsg (nameOf M j) m⟩ :=
    errOf_setStatus_self M _ _ (herr ▸ hj)
  have hev : PropEvol B (propagateCancel B) := by
    refine propagateCancel_propEvol B ?_ ?_
    · rw [setStatus_status_len, setStatus_jobs, hst]
    · rw [setStatus_err_len, setStatus_jobs, herr]
  rcases hev.2.2.2.2.2.2.2 j with ⟨hs, he⟩ | ⟨hpend, _, _⟩
  · exact ⟨by rw [show finishFailed M j m = propagateCancel B from rfl, hs, hBst],
      by rw [show finishFailed M j m = propagateCancel B from rfl, he, hBerr]⟩
  · rw [hBst] at hpend
    cases hpend

/-- C4. If a dependency of a job is FAILED or CANCELED, the job ends
CANCELED (never FAILED or OK), and so does every transitive dependent; this
holds at every state satisfying the scheduler invariants, in particular
after any single-worker run and after any successful schedule call.
Scheduling a job whose dependency is already FAILED or CANCELED makes it
CANCELED in the very state schedule returns (scenario 3: job1 and job2 are
CANCELED in the state returned by schedule, before any worker ran), and
wait on such a dependent raises an error of kind CANCELED. -/
theorem c4_cancellation_propagation :
    (∀ L : Loader, LInv L → NoBadDepPending L → ∀ j d, d ∈ depsOf L j →
      Bad (statusOf L d) → statusOf L j = .CANCELED) ∧
    (∀ L : Loader, LInv L → NoBadDepPending L → ∀ d j,
      Relation.TransGen (fun a b => EdgeTo L.jobs b a) d j →
      Bad (statusOf L d) → statusOf L j = .CANCELED) ∧
    (∀ (L : Loader) (batch : List JobSpec) (L' : Loader) (j d : Nat), LInv L →
      scheduleJobs L batch = .ok L' → d ∈ depsOf L' j → Bad (statusOf L' d) →
      statusOf L' j = .CANCELED) ∧
    (∀ (jobs : List JobSpec) (hook : Nat → List (Nat × Int)) (fuel : Nat) (j d : Nat),
      d ∈ depsOf (run hook fuel (initLoader jobs)) j →
      Bad (statusOf (run hook fuel (initLoader jobs)) d) →
      statusOf (run hook fuel (initLoader jobs)) j = .CANCELED) ∧
    (∀ (L : Loader) (j : Nat), LInv L → statusOf L j = .CANCELED →
      ∃ m, waitJob L j = some (.error ⟨.CANCELED, m⟩)) ∧
    statusOf scenC4b 1 = .CANCELED ∧ statusOf scenC4b 2 = .CANCELED ∧
    waitJob scenC4b 1 = some (.error ⟨.CANCELED,
      "Load job job1 canceled: Load job canceled_job canceled: canceled by task remove"⟩) ∧
    waitJob scenC4b 2 = some (.error ⟨.CANCELED,
      "Load job job2 canceled: Load job job1 canceled: Load job canceled_job canceled: canceled by task remove"⟩) :=
  ⟨fun L hInv hnbp j d hd hbad => bad_dep_canceled L hInv hnbp j d hd hbad,
   fun L hInv hnbp d j h hbad => bad_dep_canceled_trans L hInv hnbp d j h hbad,
   fun L batch L' j d hInv hok hd hbad =>
     bad_dep_canceled L' (scheduleJobs_ok_inv L batch L' hInv hok).1
       (scheduleJobs_ok_inv L batch L' hInv hok).2 j d hd hbad,
   fun jobs hook fuel j d hd hbad =>
     bad_dep_canceled _
       (run_inv hook fuel (initLoader jobs) (LInv_initLoader jobs) (NBP_initLoader jobs)).1
       (run_inv hook fuel (initLoader jobs) (LInv_initLoader jobs) (NBP_initLoader jobs)).2
       j d hd hbad,
   fun L j hInv hc => waitJob_canceled L hInv j hc,
   by decide, by decide, by decide, by decide⟩

/-- Witness for c4_cancellation_propagation: the run-final clause applied to
the two-failures graph, where job j (index 2) depends on f1 (index 0),
whose status is FAILED after the run, so j is CANCELED. -/
theorem c4_cancellation_propagation_witness :
    ((0 : Nat) ∈ depsOf (run noHook 3 (initLoader cexJobs)) 2 ∧
      Bad (statusOf (run noHook 3 (initLoader cexJobs)) 0)) ∧
    statusOf (run noHook 3 (initLoader cexJobs)) 2 = .CANCELED :=
  ⟨⟨by decide, by decide⟩,
   c4_cancellation_propagation.2.2.2.1 cexJobs noHook 3 2 0 (by decide) (by decide)⟩

/-- C3 counterexample. Two jobs f1 and f2 fail independently (with
exception messages m1 and m2) and job j depends on both. After the run, f1
is FAILED with a stored message carrying m1, j is a direct dependent of f1
and is CANCELED, yet the message stored for j does not contain m1 (it cites
f2, the failure that actually triggered the cancellation): instantiating
the claim at the failing job f1 and its dependent j refutes the clause that
the dependent's message contains the originating failure's message, for
every originating failure. -/
theorem c3_counterexample :
    statusOf cexRun 0 = .FAILED ∧
    errOf cexRun 0 = some ⟨.FAILED, "Load job f1 failed: m1"⟩ ∧
    strContains (msgOf cexRun 0) "m1" ∧
    (0 : Nat) ∈ depsOf cexRun 2 ∧
    statusOf cexRun 2 = .CANCELED ∧
    msgOf cexRun 2 = "Load job j canceled: Load job f2 failed: m2" ∧
    ¬ strContains (msgOf cexRun 2) "m1" ∧
    ¬ strContains (msgOf cexRun 2) (msgOf cexRun 0) := by
  refine ⟨by decide, by decide, by decide, by decide, by decide, by decide, by decide, by decide⟩

/-- C3 amended. For every job whose user function throws, the job becomes
FAILED and its stored error has kind FAILED carrying the exception message;
every direct and transitive dependent ends CANCELED (never FAILED or OK)
with an error of kind CANCELED whose message contains the stored message of
the FAILED or CANCELED dependency that triggered its cancellation (rather
than of every originating failure; with a single originating failure, as in
scenario 4, the origin message is carried transitively); wait on the failed
job raises FAILED with that message and wait on each canceled dependent
raises CANCELED with its stored message. -/
theorem c3_failure_propagation_amended :
    statusOf scen4mid 0 = .FAILED ∧
    errOf scen4mid 0 = some ⟨.FAILED, "Load job failed_job failed: test job failure"⟩ ∧
    strContains (msgOf scen4mid 0) "test job failure" ∧
    statusOf scen4sched 1 = .CANCELED ∧ statusOf scen4sched 2 = .CANCELED ∧
    strContains (msgOf scen4sched 1) "test job failure" ∧
    strContains (msgOf scen4sched 2) "test job failure" ∧
    waitJob scen4sched 0 = some (.error ⟨.FAILED,
      "Load job failed_job failed: test job failure"⟩) ∧
    waitJob scen4sched 1 = some (.error ⟨.CANCELED,
      "Load job job1 canceled: Load job failed_job failed: test job failure"⟩) ∧
    waitJob scen4sched 2 = some (.error ⟨.CANCELED,
      "Load job job2 canceled: Load job job1 canceled: Load job failed_job failed: test job failure"⟩) ∧
    (∀ (M : Loader) (j : Nat) (m : String),
      M.status.length = M.jobs.length → M.err.length = M.jobs.length →
      j < M.jobs.length →
      statusOf (finishFailed M j m) j = .FAILED ∧
      errOf (finishFailed M j m) j = some ⟨.FAILED, failMsg (nameOf M j) m⟩) ∧
    (∀ n c, strContains (failMsg n c) c) ∧
    (∀ A B : Loader, PropEvol A B → ∀ k, statusOf A k = .PENDING →
      statusOf B k = .CANCELED →
      ∃ d ∈ depsOf B k, Bad (statusOf B d) ∧ strContains (msgOf B k) (msgOf B d)) ∧
    (∀ (jobs : List JobSpec) (hook : Nat → List (Nat × Int)) (fuel : Nat) (j d : Nat),
      d ∈ depsOf (run hook fuel (initLoader jobs)) j →
      Bad (statusOf (run hook fuel (initLoader jobs)) d) →
      statusOf (run hook fuel (initLoader jobs)) j = .CANCELED) ∧
    (∀ (L : Loader) (j : Nat), LInv L → statusOf L j = .FAILED →
      ∃ m, waitJob L j = some (.error ⟨.FAILED, m⟩)) :=
  ⟨by decide, by decide, by decide, by decide, by decide, by decide, by decide,
   by decide, by decide, by decide,
   fun M j m hst herr hj => finishFailed_err M j m hst herr hj,
   fun n c => strContains_failMsg n c,
   fun A B h k hp hc => propEvol_canceled_cites h k hp hc,
   fun jobs hook fuel j d hd hbad =>
     bad_dep_canceled _
       (run_inv hook fuel (initLoader jobs) (LInv_initLoader jobs) (NBP_initLoader jobs)).1
       (run_inv hook fuel (initLoader jobs) (LInv_initLoader jobs) (NBP_initLoader jobs)).2
       j d hd hbad,
   fun L j hInv hf => waitJob_failed L hInv j hf⟩

/-- Witness for c3_failure_propagation_amended: the failure-handling clause
applied at the loader state of scenario 4 right after insertion, and the
propagation-citation clause applied across the propagation that schedule
performs there. -/
theorem c3_failure_propagation_amended_witness :
    ((scheduleInsert scen4mid [⟨"job1", [0], 0, none⟩, ⟨"job2", [1], 0, none⟩]).status.length =
        (scheduleInsert scen4mid [⟨"job1", [0], 0, none⟩, ⟨"job2", [1], 0, none⟩]).jobs.length ∧
      statusOf (scheduleInsert scen4mid [⟨"job1", [0], 0, none⟩, ⟨"job2", [1], 0, none⟩]) 1 =
        .PENDING ∧
      statusOf (propagateCancel
        (scheduleInsert scen4mid [⟨"job1", [0], 0, none⟩, ⟨"job2", [1], 0, none⟩])) 1 =
        .CANCELED) ∧
    (∃ d ∈ depsOf (propagateCancel
        (scheduleInsert scen4mid [⟨"job1", [0], 0, none⟩, ⟨"job2", [1], 0, none⟩])) 1,
      Bad (statusOf (propagateCancel
        (scheduleInsert scen4mid [⟨"job1", [0], 0, none⟩, ⟨"job2", [1], 0, none⟩])) d) ∧
      strContains
        (msgOf (propagateCancel
          (scheduleInsert scen4mid [⟨"job1", [0], 0, none⟩, ⟨"job2", [1], 0, none⟩])) 1)
        (msgOf (propagateCancel
          (scheduleInsert scen4mid [⟨"job1", [0], 0, none⟩, ⟨"job2", [1], 0, none⟩])) d)) :=
  ⟨⟨by decide, by decide, by decide⟩,
   c3_failure_propagation_amended.2.2.2.2.2.2.2.2.2.2.2.2.1
     (scheduleInsert scen4mid [⟨"job1", [0], 0, none⟩, ⟨"job2", [1], 0, none⟩])
     (propagateCancel (scheduleInsert scen4mid [⟨"job1", [0], 0, none⟩, ⟨"job2", [1], 0, none⟩]))
     (propagateCancel_propEvol _ (by decide) (by decide))
     1 (by decide) (by decide)⟩

/-! Depth-first search: correctness of the cycle check. -/

theorem DfsPost_refl (s : DfsState) : DfsPost s s :=
  ⟨rfl, fun _ h => h, fun _ => Iff.rfl, [], by simp⟩

theorem DfsPost_trans {s1 s2 s3 : DfsState} (h1 : DfsPost s1 s2) (h2 : DfsPost s2 s3) :
    DfsPost s1 s3 := by
  obtain ⟨l1, b1, g1, t1, ht1⟩ := h1
  obtain ⟨l2, b2, g2, t2, ht2⟩ := h2
  exact ⟨l2.trans l1, fun v h => b2 v (b1 v h), fun v => (g2 v).trans (g1 v),
    t1 ++ t2, by rw [ht2, ht1, List.append_assoc]⟩

theorem colorOf_out_of_range (c : List Color) (v : Nat) (h : c.length ≤ v) :
    colorOf c v = .white :=
  List.getD_eq_default _ _ h

theorem gray_lt_of_inv {jobs : List JobSpec} {s : DfsState} {path : List Nat}
    (hInv : DfsInv jobs s path) : ∀ v ∈ path, v < jobs.length := by
  intro v hv
  by_contra hc
  have hgray : colorOf s.1 v = .gray := (hInv.2.1 v).mpr hv
  rw [colorOf_out_of_range s.1 v (by rw [hInv.1]; exact Nat.le_of_not_lt hc)] at hgray
  cases hgray

theorem path_length_le {jobs : List JobSpec} {s : DfsState} {path : List Nat}
    (hInv : DfsInv jobs s path) : path.length ≤ jobs.length := by
  have hnd := hInv.2.2.1
  have hlt := gray_lt_of_inv hInv
  have h1 : path.toFinset.card = path.length := List.toFinset_card_of_nodup hnd
  have h2 : path.toFinset ⊆ Finset.range jobs.length := by
    intro x hx
    rw [List.mem_toFinset] at hx
    exact Finset.mem_range.mpr (hlt x hx)
  have := Finset.card_le_card h2
  rw [h1, Finset.card_range] at this
  exact this

/-- Specification of visiting the dependency list of a node, given the
specification of the single-node visit at the same fuel. -/
theorem dfsDeps_ok_of_visit (jobs : List JobSpec) (fuel : Nat)
    (hvisit : ∀ u s path s', dfsVisit (adjOf jobs) fuel u s path = .ok s' →
      DfsInv jobs s path → u < jobs.length → jobs.length + 1 ≤ fuel + path.length →
      DfsPost s s' ∧ colorOf s'.1 u = .black ∧ DfsInv jobs s' path) :
    ∀ (l : List Nat) (s : DfsState) (path : List Nat) (s' : DfsState),
      dfsDeps (dfsVisit (adjOf jobs) fuel) l s path = .ok s' →
      DfsInv jobs s path → (∀ d ∈ l, d < jobs.length) →
      jobs.length + 1 ≤ fuel + path.length →
      DfsPost s s' ∧ (∀ d ∈ l, colorOf s'.1 d = .black) ∧ DfsInv jobs s' path := by
  intro l
  induction l with
  | nil =>
      intro s path s' h hInv _ _
      cases h
      exact ⟨DfsPost_refl s, fun d hd => absurd hd (List.not_mem_nil d), hInv⟩
  | cons x xs ih =>
      intro s path s' h hInv hl hfuel
      unfold dfsDeps at h
      cases hx : dfsVisit (adjOf jobs) fuel x s path <;> rw [hx] at h
      · cases h
      · rename_i s1
        rcases hvisit x s path s1 hx hInv (hl x (List.mem_cons_self _ _)) hfuel with
          ⟨hpost1, hblack1, hInv1⟩
        rcases ih s1 path s' h hInv1 (fun d hd => hl d (List.mem_cons_of_mem _ hd)) hfuel with
          ⟨hpost2, hblack2, hInv2⟩
        refine ⟨DfsPost_trans hpost1 hpost2, ?_, hInv2⟩
        intro d hd
        rcases List.mem_cons.mp hd with hd | hd
        · subst hd
          exact hpost2.2.1 d hblack1
        · exact hblack2 d hd

/-- Well-formedness bounds dependencies of every node, in or out of
range. -/
theorem WFDeps_all (jobs : List JobSpec) (hWF : WFDeps jobs) :
    ∀ j d, d ∈ adjOf jobs j → d < jobs.length := by
  intro j d hd
  by_cases hj : j < jobs.length
  · exact hWF j hj d hd
  · exfalso
    unfold adjOf at hd
    rw [List.getD_eq_default _ _ (Nat.le_of_not_lt hj), default_jobSpec_deps] at hd
    cases hd

/-- Specification of a successful single-node visit: the invariant is
preserved, the state evolves by DfsPost, and the visited node is BLACK
afterwards. -/
theorem dfsVisit_ok_spec (jobs : List JobSpec) (hWF : WFDeps jobs) :
    ∀ (fuel : Nat) (u : Nat) (s : DfsState) (path : List Nat) (s' : DfsState),
      dfsVisit (adjOf jobs) fuel u s path = .ok s' →
      DfsInv jobs s path → u < jobs.length →
      jobs.length + 1 ≤ fuel + path.length →
      DfsPost s s' ∧ colorOf s'.1 u = .black ∧ DfsInv jobs s' path := by
  intro fuel
  induction fuel with
  | zero =>
      intro u s path s' _ hInv _ hfuel
      exfalso
      have := path_length_le hInv
      omega
  | succ m ih =>
      intro u s path s' h hInv hu hfuel
      unfold dfsVisit at h
      cases hcol : colorOf s.1 u <;> rw [hcol] at h
      · -- white: expand the node
        have hulen : u < s.1.length := hInv.1 ▸ hu
        have hunotpath : u ∉ path := by
          intro hmem
          have := (hInv.2.1 u).mpr hmem
          rw [hcol] at this
          cases this
        have hunotblack : u ∉ s.2 := by
          intro hmem
          have := (hInv.2.2.2.1 u).mpr hmem
          rw [hcol] at this
          cases this
        have hInvG : DfsInv jobs (s.1.set u .gray, s.2) (u :: path) := by
          refine ⟨by simpa using hInv.1, ?_, ?_, ?_, ?_⟩
          · intro v
            by_cases hvu : v = u
            · subst hvu
              constructor
              · intro _; exact List.mem_cons_self _ _
              · intro _
                exact getD_set_eq s.1 v .gray .white hulen
            · show colorOf (s.1.set u .gray) v = _ ↔ _
              unfold colorOf
              rw [getD_set_ne s.1 _ _ (fun he => hvu he.symm)]
              rw [List.mem_cons]
              exact (hInv.2.1 v).trans (by
                constructor
                · exact Or.inr
                · intro hor
                  rcases hor with hor | hor
                  · exact absurd hor hvu
                  · exact hor)
            -- close gray iff
          · exact List.nodup_cons.mpr ⟨hunotpath, hInv.2.2.1⟩
          · intro v
            by_cases hvu : v = u
            · subst hvu
              constructor
              · intro hb
                rw [show colorOf ((s.1.set v .gray, s.2) : DfsState).1 v = .gray from
                  getD_set_eq s.1 v .gray .white hulen] at hb
                cases hb
              · intro hmem
                exact absurd hmem hunotblack
            · show colorOf (s.1.set u .gray) v = _ ↔ _
              unfold colorOf
              rw [getD_set_ne s.1 _ _ (fun he => hvu he.symm)]
              exact hInv.2.2.2.1 v
          · exact hInv.2.2.2.2
        cases hd2 : dfsDeps (dfsVisit (adjOf jobs) m) (adjOf jobs u)
            (s.1.set u .gray, s.2) (u :: path) <;> rw [hd2] at h
        · cases h
        · rename_i s2
          cases h
          rcases dfsDeps_ok_of_visit jobs m ih (adjOf jobs u) _ (u :: path) s2 hd2 hInvG
            (fun d hd => WFDeps_all jobs hWF u d hd)
            (by simp only [List.length_cons]; omega) with
            ⟨hpostD, hblackD, hInvD⟩
          have hs2len : s2.1.length = s.1.length := by
            rw [hpostD.1]
            simp
          have hus2 : u < s2.1.length := hs2len ▸ hulen
          have hugray2 : colorOf s2.1 u = .gray :=
            (hInvD.2.1 u).mpr (List.mem_cons_self _ _)
          refine ⟨?_, ?_, ?_⟩
          · -- DfsPost s s'
            refine ⟨by simpa using hs2len, ?_, ?_, ?_⟩
            · intro v hb
              have hvu : v ≠ u := by
                intro he
                rw [he, hcol] at hb
                cases hb
              show colorOf (s2.1.set u .black) v = .black
              unfold colorOf
              rw [getD_set_ne s2.1 _ _ (fun he => hvu he.symm)]
              have : colorOf ((s.1.set u .gray, s.2) : DfsState).1 v = .black := by
                show colorOf (s.1.set u .gray) v = .black
                unfold colorOf
                rw [getD_set_ne s.1 _ _ (fun he => hvu he.symm)]
                exact hb
              exact hpostD.2.1 v this
            · intro v
              by_cases hvu : v = u
              · subst hvu
                constructor
                · intro hg
                  rw [show colorOf (s2.1.set v .black) v = .black from
                    getD_set_eq s2.1 v .black .white hus2] at hg
                  cases hg
                · intro hg
                  rw [hcol] at hg
                  cases hg
              · show colorOf (s2.1.set u .black) v = _ ↔ _
                unfold colorOf
                rw [getD_set_ne s2.1 _ _ (fun he => hvu he.symm)]
                have h1 := hpostD.2.2.1 v
                have h2 : colorOf ((s.1.set u .gray, s.2) : DfsState).1 v = colorOf s.1 v := by
                  show colorOf (s.1.set u .gray) v = colorOf s.1 v
                  unfold colorOf
                  rw [getD_set_ne s.1 _ _ (fun he => hvu he.symm)]
                rw [h2] at h1
                exact h1
            · rcases hpostD.2.2.2 with ⟨t, ht⟩
              exact ⟨t ++ [u], by
                show s2.2 ++ [u] = s.2 ++ (t ++ [u])
                rw [ht]
                exact (List.append_assoc _ _ _)⟩
          · exact getD_set_eq s2.1 u .black .white hus2
          · -- DfsInv at the result with the original path
            refine ⟨by simpa using hs2len ▸ hInv.1, ?_, hInv.2.2.1, ?_, ?_⟩
            · intro v
              by_cases hvu : v = u
              · subst hvu
                constructor
                · intro hg
                  rw [show colorOf (s2.1.set v .black) v = .black from
                    getD_set_eq s2.1 v .black .white hus2] at hg
                  cases hg
                · intro hmem
                  exact absurd hmem hunotpath
              · show colorOf (s2.1.set u .black) v = _ ↔ _
                unfold colorOf
                rw [getD_set_ne s2.1 _ _ (fun he => hvu he.symm)]
                have h1 := hInvD.2.1 v
                rw [List.mem_cons] at h1
                constructor
                · intro hg
                  rcases h1.mp hg with hor | hor
                  · exact absurd hor hvu
                  · exact hor
                · intro hmem
                  exact h1.mpr (Or.inr hmem)
            · intro v
              by_cases hvu : v = u
              · subst hvu
                constructor
                · intro _
                  exact List.mem_append_right _ (List.mem_singleton.mpr rfl)
                · intro _
                  exact getD_set_eq s2.1 v .black .white hus2
              · show colorOf (s2.1.set u .black) v = _ ↔ _
                unfold colorOf
                rw [getD_set_ne s2.1 _ _ (fun he => hvu he.symm)]
                have h1 := hInvD.2.2.2.1 v
                rw [List.mem_append, List.mem_singleton]
                constructor
                · intro hb
                  exact Or.inl (h1.mp hb)
                · intro hor
                  rcases hor with hor | hor
                  · exact h1.mpr hor
                  · exact absurd hor hvu
            · intro i hi d hd
              rw [List.length_append, List.length_singleton] at hi
              by_cases hil : i < s2.2.length
              · rw [List.getD_append _ _ _ _ hil] at hd
                rw [List.take_append_of_le_length (le_of_lt hil)]
                exact hInvD.2.2.2.2 i hil d hd
              · have hieq : i = s2.2.length := by omega
                subst hieq
                rw [List.getD_append_right _ _ _ _ (le_refl _)] at hd
                simp only [Nat.sub_self] at hd
                have hdu : d ∈ adjOf jobs u := by simpa using hd
                rw [List.take_left]
                exact (hInvD.2.2.2.1 d).mp (hblackD d hdu)
      · -- gray: the call reports a cycle, contradiction with ok
        cases h
      · -- black: nothing to do
        cases h
        exact ⟨DfsPost_refl s, hcol, hInv⟩

theorem edge_src_lt (jobs : List JobSpec) {a b : Nat} (h : EdgeTo jobs a b) :
    a < jobs.length := by
  by_contra hc
  unfold EdgeTo at h
  rw [List.getD_eq_default _ _ (Nat.le_of_not_lt hc), default_jobSpec_deps] at h
  cases h

theorem mem_take_indexOf {b : Nat} : ∀ (l : List Nat) (i : Nat), b ∈ l.take i →
    l.indexOf b < i := by
  intro l
  induction l with
  | nil => intro i h; rw [List.take_nil] at h; cases h
  | cons x xs ih =>
      intro i h
      cases i with
      | zero => cases h
      | succ k =>
          rw [List.take_succ_cons] at h
          rcases List.mem_cons.mp h with h | h
          · subst h
            rw [List.indexOf_cons_self]
            omega
          · by_cases hbx : x = b
            · subst hbx
              rw [List.indexOf_cons_self]
              omega
            · rw [List.indexOf_cons_ne _ hbx]
              have := ih k h
              omega

/-- If the check reports no cycle, the provisional dependency graph is
acyclic. -/
theorem cycleCheck_none_acyclic (jobs : List JobSpec) (hWF : WFDeps jobs)
    (h : cycleCheck jobs = none) : ¬ HasCycle jobs := by
  unfold cycleCheck at h
  cases hrun : dfsDeps (dfsVisit (adjOf jobs) (jobs.length + 1)) (List.range jobs.length)
      (List.replicate jobs.length .white, []) [] <;> rw [hrun] at h
  · cases h
  rename_i s'
  have hInv0 : DfsInv jobs (List.replicate jobs.length .white, []) [] := by
    have hwhite : ∀ v, colorOf (List.replicate jobs.length Color.white) v = .white := by
      intro v
      by_cases hv : v < jobs.length
      · show (List.replicate jobs.length Color.white).getD v .white = .white
        rw [getD_eq_getElem _ _ (by simpa using hv)]
        simp
      · exact colorOf_out_of_range _ _ (by simpa using Nat.le_of_not_lt hv)
    refine ⟨by simp, ?_, List.nodup_nil, ?_, ?_⟩
    · intro v
      rw [hwhite v]
      constructor
      · intro hc; cases hc
      · intro hc; cases hc
    · intro v
      rw [hwhite v]
      constructor
      · intro hc; cases hc
      · intro hc; cases hc
    · intro i hi d hd
      cases hi
  rcases dfsDeps_ok_of_visit jobs (jobs.length + 1) (dfsVisit_ok_spec jobs hWF (jobs.length + 1))
      (List.range jobs.length) _ [] s' hrun hInv0
      (fun d hd => List.mem_range.mp hd) (by simp) with ⟨_, hblackAll, hInv'⟩
  rintro ⟨u, hcyc⟩
  have hmemBlack : ∀ v, v < jobs.length → v ∈ s'.2 := by
    intro v hv
    exact (hInv'.2.2.2.1 v).mp (hblackAll v (List.mem_range.mpr hv))
  have hstep : ∀ a b, EdgeTo jobs a b → a ∈ s'.2 →
      b ∈ s'.2 ∧ s'.2.indexOf b < s'.2.indexOf a := by
    intro a b hab ha
    have hia : s'.2.indexOf a < s'.2.length := List.indexOf_lt_length.mpr ha
    have hga : s'.2.getD (s'.2.indexOf a) 0 = a := by
      rw [getD_eq_getElem _ _ hia]
      exact List.getElem_indexOf hia
    have hbtake : b ∈ s'.2.take (s'.2.indexOf a) := by
      refine hInv'.2.2.2.2 (s'.2.indexOf a) hia b ?_
      rw [hga]
      exact hab
    exact ⟨List.take_subset _ _ hbtake, mem_take_indexOf _ _ hbtake⟩
  have hdesc : ∀ a b, Relation.TransGen (EdgeTo jobs) a b → a ∈ s'.2 →
      b ∈ s'.2 ∧ s'.2.indexOf b < s'.2.indexOf a := by
    intro a b hab ha
    induction hab with
    | single h1 => exact hstep _ _ h1 ha
    | tail _ hbc ih =>
        rcases ih with ⟨hb, hlt⟩
        rcases hstep _ _ hbc hb with ⟨hc, hlt2⟩
        exact ⟨hc, lt_trans hlt2 hlt⟩
  have hu : u ∈ s'.2 := by
    rcases Relation.TransGen.head'_iff.mp hcyc with ⟨w, hw, _⟩
    exact hmemBlack u (edge_src_lt jobs hw)
  rcases hdesc u u hcyc hu with ⟨_, hlt⟩
  exact absurd hlt (lt_irrefl _)

/-! Soundness of the reported cycle: all reported nodes lie on a real
dependency cycle. -/

theorem chain_elem_reaches (jobs : List JobSpec) :
    ∀ (l : List Nat) (a : Nat), List.Chain (fun x y => EdgeTo jobs y x) a l →
    ∀ x ∈ l, Relation.ReflTransGen (EdgeTo jobs) x a := by
  intro l
  induction l with
  | nil => intro a _ x hx; cases hx
  | cons b m ih =>
      intro a hch x hx
      rcases List.chain_cons.mp hch with ⟨hab, hbm⟩
      rcases List.mem_cons.mp hx with hx | hx
      · subst hx
        exact Relation.ReflTransGen.single hab
      · exact (ih b hbm x hx).trans (Relation.ReflTransGen.single hab)

theorem chain_last_reaches (jobs : List JobSpec) :
    ∀ (l : List Nat) (a : Nat), List.Chain (fun x y => EdgeTo jobs y x) a l →
    ∀ x ∈ a :: l, Relation.ReflTransGen (EdgeTo jobs) ((a :: l).getLast (by simp)) x := by
  intro l
  induction l with
  | nil =>
      intro a _ x hx
      rw [List.mem_singleton.mp hx]
      exact Relation.ReflTransGen.refl
  | cons b m ih =>
      intro a hch x hx
      rcases List.chain_cons.mp hch with ⟨hab, hbm⟩
      have hlast : (a :: b :: m).getLast (by simp) = (b :: m).getLast (by simp) := by
        rfl
      rw [hlast]
      rcases List.mem_cons.mp hx with hx | hx
      · subst hx
        exact (ih b hbm b (List.mem_cons_self _ _)).trans (Relation.ReflTransGen.single hab)
      · exact ih b hbm x hx

theorem ring_all_cycles (jobs : List JobSpec) (u : Nat) (q : List Nat)
    (hch : List.Chain (fun x y => EdgeTo jobs y x) u q)
    (hwrap : EdgeTo jobs u ((u :: q).getLast (by simp))) :
    ∀ x ∈ u :: q, Relation.TransGen (EdgeTo jobs) x x := by
  intro x hx
  have hx1 : Relation.ReflTransGen (EdgeTo jobs) x u := by
    rcases List.mem_cons.mp hx with hx | hx
    · subst hx; exact Relation.ReflTransGen.refl
    · exact chain_elem_reaches jobs q u hch x hx
  have hx2 : Relation.TransGen (EdgeTo jobs) u x :=
    Relation.TransGen.head' hwrap (chain_last_reaches jobs q u hch x hx)
  exact Relation.TransGen.trans_right hx1 hx2

theorem chain_last_link {R : Nat → Nat → Prop} :
    ∀ (l : List Nat) (a b : Nat), List.Chain R a (l ++ [b]) →
    R ((a :: l).getLast (by simp)) b := by
  intro l
  induction l with
  | nil =>
      intro a b hch
      rcases List.chain_cons.mp hch with ⟨hab, _⟩
      exact hab
  | cons x xs ih =>
      intro a b hch
      rcases List.chain_cons.mp hch with ⟨_, hxs⟩
      have hlast : (a :: x :: xs).getLast (by simp) = (x :: xs).getLast (by simp) := rfl
      rw [hlast]
      exact ih x b hxs

/-- The invariant after pushing a fresh white node onto the search path. -/
theorem DfsInv_push_gray {jobs : List JobSpec} {s : DfsState} {path : List Nat} {u : Nat}
    (hInv : DfsInv jobs s path) (hu : u < jobs.length)
    (hwhite : colorOf s.1 u = .white) :
    DfsInv jobs (s.1.set u .gray, s.2) (u :: path) := by
  have hulen : u < s.1.length := hInv.1 ▸ hu
  have hunotpath : u ∉ path := by
    intro hmem
    have := (hInv.2.1 u).mpr hmem
    rw [hwhite] at this
    cases this
  have hunotblack : u ∉ s.2 := by
    intro hmem
    have := (hInv.2.2.2.1 u).mpr hmem
    rw [hwhite] at this
    cases this
  refine ⟨by simpa using hInv.1, ?_, List.nodup_cons.mpr ⟨hunotpath, hInv.2.2.1⟩, ?_,
    hInv.2.2.2.2⟩
  · intro v
    by_cases hvu : v = u
    · subst hvu
      constructor
      · intro _; exact List.mem_cons_self _ _
      · intro _; exact getD_set_eq s.1 v .gray .white hulen
    · show colorOf (s.1.set u .gray) v = _ ↔ _
      unfold colorOf
      rw [getD_set_ne s.1 _ _ (fun he => hvu he.symm)]
      rw [List.mem_cons]
      refine (hInv.2.1 v).trans ⟨Or.inr, ?_⟩
      intro hor
      rcases hor with hor | hor
      · exact absurd hor hvu
      · exact hor
  · intro v
    by_cases hvu : v = u
    · subst hvu
      constructor
      · intro hb
        rw [show colorOf ((s.1.set v .gray, s.2) : DfsState).1 v = .gray from
          getD_set_eq s.1 v .gray .white hulen] at hb
        cases hb
      · intro hmem
        exact absurd hmem hunotblack
    · show colorOf (s.1.set u .gray) v = _ ↔ _
      unfold colorOf
      rw [getD_set_ne s.1 _ _ (fun he => hvu he.symm)]
      exact hInv.2.2.2.1 v

/-- Hitting a GRAY node u closes a cycle: the segment of the search path up
to u, together with u, is a ring of dependency edges, so all its nodes lie
on a cycle. -/
theorem gray_hit_cycspec (jobs : List JobSpec) (u : Nat) (path : List Nat)
    (hch : PathChain jobs path) (hhead : HeadHyp jobs path u) (hupath : u ∈ path) :
    CycSpec jobs (u :: path.takeWhile (fun v => decide (v ≠ u))) := by
  have hne : path.dropWhile (fun v => decide (v ≠ u)) ≠ [] := by
    intro hdw
    have hsp := List.takeWhile_append_dropWhile (fun v => decide (v ≠ u)) path
    rw [hdw, List.append_nil] at hsp
    rw [← hsp] at hupath
    have := List.mem_takeWhile_imp hupath
    simp at this
  have hhd : (path.dropWhile (fun v => decide (v ≠ u))).head hne = u := by
    have h2 : decide ((path.dropWhile (fun v => decide (v ≠ u))).head hne ≠ u) = false :=
      List.head_dropWhile_not _ path hne
    exact not_not.mp (of_decide_eq_false h2)
  have hdw : path.dropWhile (fun v => decide (v ≠ u)) =
      u :: (path.dropWhile (fun v => decide (v ≠ u))).tail := by
    conv_lhs => rw [← List.head_cons_tail _ hne]
    rw [hhd]
  have hsplit : path = path.takeWhile (fun v => decide (v ≠ u)) ++
      u :: (path.dropWhile (fun v => decide (v ≠ u))).tail := by
    conv_lhs => rw [← List.takeWhile_append_dropWhile (fun v => decide (v ≠ u)) path, hdw]
  rcases hqe : path.takeWhile (fun v => decide (v ≠ u)) with _ | ⟨q0, q'⟩
  · -- the innermost gray ancestor is u itself: a self loop
    rw [hqe] at hsplit
    rw [List.nil_append] at hsplit
    have hself : EdgeTo jobs u u := hhead u _ hsplit
    refine ⟨by simp, ?_⟩
    intro x hx
    have : x = u := List.mem_singleton.mp hx
    subst this
    exact Relation.TransGen.single hself
  · rw [hqe] at hsplit
    have hq0u : EdgeTo jobs q0 u :=
      hhead q0 (q' ++ u :: (path.dropWhile (fun v => decide (v ≠ u))).tail) hsplit
    have hchain : List.Chain (fun x y => EdgeTo jobs y x) q0
        (q' ++ u :: (path.dropWhile (fun v => decide (v ≠ u))).tail) := by
      have h2 := hch
      rw [hsplit] at h2
      exact h2
    rcases List.chain_split.mp hchain with ⟨hc1, _⟩
    have hwrap : EdgeTo jobs u ((u :: q0 :: q').getLast (by simp)) := by
      have hlink := chain_last_link q' q0 u hc1
      exact hlink
    have haux : ∀ (l : List Nat) (a b : Nat),
        List.Chain (fun x y => EdgeTo jobs y x) a (l ++ [b]) →
        List.Chain (fun x y => EdgeTo jobs y x) a l := by
      intro l
      induction l with
      | nil => intro a b _; exact List.Chain.nil
      | cons z zs ihz =>
          intro a b hcz
          rcases List.chain_cons.mp hcz with ⟨h1, h2⟩
          exact List.Chain.cons h1 (ihz z b h2)
    have hring : List.Chain (fun x y => EdgeTo jobs y x) u (q0 :: q') :=
      List.Chain.cons hq0u (haux q' q0 u hc1)
    exact ⟨by simp, ring_all_cycles jobs u (q0 :: q') hring hwrap⟩

/-- Specification of visiting a dependency list when a cycle is reported,
given the error specification of the single-node visit at the same fuel. -/
theorem dfsDeps_err_of_visit (jobs : List JobSpec) (hWF : WFDeps jobs) (fuel : Nat)
    (hperr : ∀ u s path cyc, dfsVisit (adjOf jobs) fuel u s path = .error cyc →
      DfsInv jobs s path → PathChain jobs path → HeadHyp jobs path u →
      u < jobs.length → jobs.length + 1 ≤ fuel + path.length → CycSpec jobs cyc) :
    ∀ (l : List Nat) (s : DfsState) (path : List Nat) (cyc : List Nat),
      dfsDeps (dfsVisit (adjOf jobs) fuel) l s path = .error cyc →
      DfsInv jobs s path → PathChain jobs path →
      (∀ d ∈ l, HeadHyp jobs path d) → (∀ d ∈ l, d < jobs.length) →
      jobs.length + 1 ≤ fuel + path.length → CycSpec jobs cyc := by
  intro l
  induction l with
  | nil => intro s path cyc h _ _ _ _ _; cases h
  | cons x xs ih =>
      intro s path cyc h hInv hch hhead hl hfuel
      unfold dfsDeps at h
      cases hx : dfsVisit (adjOf jobs) fuel x s path <;> rw [hx] at h
      · cases h
        exact hperr x s path _ hx hInv hch (hhead x (List.mem_cons_self _ _))
          (hl x (List.mem_cons_self _ _)) hfuel
      · rename_i s1
        rcases dfsVisit_ok_spec jobs hWF fuel x s path s1 hx hInv
          (hl x (List.mem_cons_self _ _)) hfuel with ⟨_, _, hInv1⟩
        exact ih s1 path cyc h hInv1 hch
          (fun d hd => hhead d (List.mem_cons_of_mem _ hd))
          (fun d hd => hl d (List.mem_cons_of_mem _ hd)) hfuel

/-- Error specification of a single-node visit: a reported list is nonempty
and all its nodes lie on a dependency cycle. -/
theorem dfsVisit_err_spec (jobs : List JobSpec) (hWF : WFDeps jobs) :
    ∀ (fuel : Nat) (u : Nat) (s : DfsState) (path : List Nat) (cyc : List Nat),
      dfsVisit (adjOf jobs) fuel u s path = .error cyc →
      DfsInv jobs s path → PathChain jobs path → HeadHyp jobs path u →
      u < jobs.length → jobs.length + 1 ≤ fuel + path.length → CycSpec jobs cyc := by
  intro fuel
  induction fuel with
  | zero => intro u s path cyc h _ _ _ _ _; cases h
  | succ m ih =>
      intro u s path cyc h hInv hch hhead hu hfuel
      unfold dfsVisit at h
      cases hcol : colorOf s.1 u <;> rw [hcol] at h
      · -- white: the error comes from the dependency visits
        cases hd2 : dfsDeps (dfsVisit (adjOf jobs) m) (adjOf jobs u)
            (s.1.set u .gray, s.2) (u :: path) <;> rw [hd2] at h
        · cases h
          have hInvG := DfsInv_push_gray hInv hu hcol
          have hchG : PathChain jobs (u :: path) := by
            cases path with
            | nil => exact List.Chain.nil
            | cons p0 rest =>
                exact List.Chain.cons (hhead p0 rest rfl) hch
          refine dfsDeps_err_of_visit jobs hWF m ih (adjOf jobs u) _ (u :: path) _
            hd2 hInvG hchG ?_ (fun d hd => WFDeps_all jobs hWF u d hd)
            (by simp only [List.length_cons]; omega)
          intro d hd p0 rest heq
          cases heq
          exact hd
        · cases h
      · -- gray: the reported list is the segment of the path up to u
        cases h
        exact gray_hit_cycspec jobs u path hch hhead ((hInv.2.1 u).mp hcol)
      · cases h

/-- If the check reports a cycle, all reported nodes lie on a real cycle of
the provisional dependency graph. -/
theorem cycleCheck_some_spec (jobs : List JobSpec) (hWF : WFDeps jobs) (cyc : List Nat)
    (h : cycleCheck jobs = some cyc) : CycSpec jobs cyc := by
  unfold cycleCheck at h
  cases hrun : dfsDeps (dfsVisit (adjOf jobs) (jobs.length + 1)) (List.range jobs.length)
      (List.replicate jobs.length .white, []) [] <;> rw [hrun] at h
  swap
  · cases h
  cases h
  have hInv0 : DfsInv jobs (List.replicate jobs.length .white, []) [] := by
    have hwhite : ∀ v, colorOf (List.replicate jobs.length Color.white) v = .white := by
      intro v
      by_cases hv : v < jobs.length
      · show (List.replicate jobs.length Color.white).getD v .white = .white
        rw [getD_eq_getElem _ _ (by simpa using hv)]
        simp
      · exact colorOf_out_of_range _ _ (by simpa using Nat.le_of_not_lt hv)
    refine ⟨by simp, ?_, List.nodup_nil, ?_, ?_⟩
    · intro v
      rw [hwhite v]
      constructor
      · intro hc; cases hc
      · intro hc; cases hc
    · intro v
      rw [hwhite v]
      constructor
      · intro hc; cases hc
      · intro hc; cases hc
    · intro i hi d hd
      cases hi
  exact dfsDeps_err_of_visit jobs hWF (jobs.length + 1)
    (dfsVisit_err_spec jobs hWF (jobs.length + 1)) (List.range jobs.length) _ [] _
    hrun hInv0 trivial (fun d _ p0 rest heq => by cases heq)
    (fun d hd => List.mem_range.mp hd) (by simp)

/-- C2. Cycle detection at schedule time: for the scenario-2 batch (jobs
j0..j10 with the forced edge closing the cycle j1, j3, j2), schedule fails
with an error of kind CYCLE whose message names exactly job1, job2 and job3
and none of job0, job4..job10, and the loader is unchanged. In general, for
every batch whose provisional graph (with in-range dependencies) contains a
cycle, schedule fails with kind CYCLE and mutates nothing; conversely a
CYCLE failure only happens when the provisional graph has a cycle, and
every node the check reports lies on a real dependency cycle. -/
theorem c2_cycle_detection :
    scheduleJobs (initLoader []) scen2jobs =
      .error ⟨.CYCLE, "Load job dependency cycle detected: job1 -> job2 -> job3"⟩ ∧
    strContains (scheduleErrMsg (initLoader []) scen2jobs) "job1" ∧
    strContains (scheduleErrMsg (initLoader []) scen2jobs) "job2" ∧
    strContains (scheduleErrMsg (initLoader []) scen2jobs) "job3" ∧
    ¬ strContains (scheduleErrMsg (initLoader []) scen2jobs) "job0" ∧
    ¬ strContains (scheduleErrMsg (initLoader []) scen2jobs) "job4" ∧
    ¬ strContains (scheduleErrMsg (initLoader []) scen2jobs) "job5" ∧
    ¬ strContains (scheduleErrMsg (initLoader []) scen2jobs) "job6" ∧
    ¬ strContains (scheduleErrMsg (initLoader []) scen2jobs) "job7" ∧
    ¬ strContains (scheduleErrMsg (initLoader []) scen2jobs) "job8" ∧
    ¬ strContains (scheduleErrMsg (initLoader []) scen2jobs) "job9" ∧
    ¬ strContains (scheduleErrMsg (initLoader []) scen2jobs) "job10" ∧
    scheduleOrKeep (initLoader []) scen2jobs = initLoader [] ∧
    (∀ (L : Loader) (batch : List JobSpec), WFDeps (L.jobs ++ batch) →
      HasCycle (L.jobs ++ batch) →
      ∃ e, scheduleJobs L batch = .error e ∧ e.kind = .CYCLE ∧
        scheduleOrKeep L batch = L) ∧
    (∀ (L : Loader) (batch : List JobSpec) (e : Err), WFDeps (L.jobs ++ batch) →
      scheduleJobs L batch = .error e → HasCycle (L.jobs ++ batch)) ∧
    (∀ (jobs : List JobSpec) (cyc : List Nat), WFDeps jobs →
      cycleCheck jobs = some cyc →
      cyc ≠ [] ∧ ∀ x ∈ cyc, Relation.TransGen (EdgeTo jobs) x x) := by
  refine ⟨by decide, by decide, by decide, by decide, by decide, by decide, by decide,
    by decide, by decide, by decide, by decide, by decide, by decide, ?_, ?_, ?_⟩
  · intro L batch hWF hcyc
    cases hcc : cycleCheck (L.jobs ++ batch)
    · exact absurd hcyc (cycleCheck_none_acyclic _ hWF hcc)
    · rename_i cyc
      refine ⟨⟨.CYCLE, cycleErrMsg (L.jobs ++ batch) cyc⟩, ?_, rfl, ?_⟩
      · unfold scheduleJobs
        rw [hcc]
      · unfold scheduleOrKeep scheduleJobs
        rw [hcc]
  · intro L batch e hWF herr
    cases hcc : cycleCheck (L.jobs ++ batch)
    · exfalso
      unfold scheduleJobs at herr
      rw [hcc] at herr
      cases herr
    · rename_i cyc
      rcases cycleCheck_some_spec _ hWF cyc hcc with ⟨hne, hall⟩
      cases hc2 : cyc with
      | nil => exact absurd hc2 hne
      | cons x xs =>
          exact ⟨x, hall x (by rw [hc2]; exact List.mem_cons_self _ _)⟩
  · intro jobs cyc hWF hcc
    exact cycleCheck_some_spec jobs hWF cyc hcc

/-- Witness for c2_cycle_detection: the completeness clause applied to the
scenario-2 batch, whose provisional graph has the cycle through jobs 1, 3
and 2. -/
theorem c2_cycle_detection_witness :
    (WFDeps ((initLoader []).jobs ++ scen2jobs) ∧
      HasCycle ((initLoader []).jobs ++ scen2jobs)) ∧
    (∃ e, scheduleJobs (initLoader []) scen2jobs = .error e ∧ e.kind = .CYCLE ∧
      scheduleOrKeep (initLoader []) scen2jobs = initLoader []) := by
  have e13 : EdgeTo ((initLoader []).jobs ++ scen2jobs) 1 3 := by decide
  have e32 : EdgeTo ((initLoader []).jobs ++ scen2jobs) 3 2 := by decide
  have e21 : EdgeTo ((initLoader []).jobs ++ scen2jobs) 2 1 := by decide
  have hcyc : HasCycle ((initLoader []).jobs ++ scen2jobs) :=
    ⟨1, Relation.TransGen.head e13 (Relation.TransGen.head e32 (Relation.TransGen.single e21))⟩
  exact ⟨⟨by decide, hcyc⟩,
    c2_cycle_detection.2.2.2.2.2.2.2.2.2.2.2.2.2.1 (initLoader []) scen2jobs (by decide) hcyc⟩

/-! Pool status evolution lemmas. -/

theorem Bad_not_pending {s : LoadStatus} (h : Bad s) : s ≠ .PENDING := by
  rcases h with h | h <;> rw [h] <;> intro hc <;> cases hc

theorem SPEvol_refl (jobs : List JobSpec) (a : List LoadStatus) : SPEvol jobs a a :=
  ⟨rfl, fun _ => Or.inl rfl⟩

theorem SPEvol_trans {jobs : List JobSpec} {a m b : List LoadStatus}
    (h1 : SPEvol jobs a m) (h2 : SPEvol jobs m b) : SPEvol jobs a b := by
  refine ⟨h2.1.trans h1.1, fun k => ?_⟩
  rcases h2.2 k with he2 | ⟨hp2, hc2, d, hd, hbad⟩
  · rcases h1.2 k with he1 | ⟨hp1, hc1, d, hd, hbad⟩
    · exact Or.inl (he2.trans he1)
    · refine Or.inr ⟨hp1, he2.trans hc1, d, hd, ?_⟩
      rcases h2.2 d with he | ⟨hp, _, _⟩
      · rw [he]; exact hbad
      · exact absurd hp (Bad_not_pending hbad)
  · have hp1 : a.getD k .PENDING = .PENDING := by
      rcases h1.2 k with he | ⟨_, hc, _⟩
      · rw [← he]; exact hp2
      · rw [hc] at hp2; cases hp2
    exact Or.inr ⟨hp1, hc2, d, hd, hbad⟩

theorem REvol_refl (ex : List Nat) (a : List LoadStatus) : REvol ex a a :=
  ⟨rfl, fun _ => Or.inl rfl⟩

theorem REvol_trans {ex : List Nat} {a m b : List LoadStatus}
    (h1 : REvol ex a m) (h2 : REvol ex m b) : REvol ex a b := by
  refine ⟨h2.1.trans h1.1, fun k => ?_⟩
  rcases h2.2 k with he2 | ⟨hp2, hc2, hex2⟩
  · rcases h1.2 k with he1 | ⟨hp1, hc1, hex1⟩
    · exact Or.inl (he2.trans he1)
    · exact Or.inr ⟨hp1, he2.trans hc1, hex1⟩
  · have hp1 : a.getD k .PENDING = .PENDING := by
      rcases h1.2 k with he | ⟨_, hc, _⟩
      · rw [← he]; exact hp2
      · rw [hc] at hp2; cases hp2
    exact Or.inr ⟨hp1, hc2, hex2⟩

theorem SPEvol_frozen {jobs : List JobSpec} {a b : List LoadStatus}
    (h : SPEvol jobs a b) (k : Nat) (hk : a.getD k .PENDING ≠ .PENDING) :
    b.getD k .PENDING = a.getD k .PENDING := by
  rcases h.2 k with he | ⟨hp, _, _⟩
  · exact he
  · exact absurd hp hk

theorem SPEvol_pending_back {jobs : List JobSpec} {a b : List LoadStatus}
    (h : SPEvol jobs a b) (k : Nat) (hk : b.getD k .PENDING = .PENDING) :
    a.getD k .PENDING = .PENDING := by
  rcases h.2 k with he | ⟨hp, _, _⟩
  · rw [← he]; exact hk
  · exact hp

theorem SPEvol_pending_keep {jobs : List JobSpec} {a b : List LoadStatus}
    (h : SPEvol jobs a b) (k : Nat)
    (hdeps : ∀ d ∈ (jobs.getD k default).deps, b.getD d .PENDING = .OK) :
    b.getD k .PENDING = a.getD k .PENDING := by
  rcases h.2 k with he | ⟨_, _, d, hd, hbad⟩
  · exact he
  · rw [hdeps d hd] at hbad
    rcases hbad with hb | hb <;> cases hb

theorem REvol_frozen {ex : List Nat} {a b : List LoadStatus}
    (h : REvol ex a b) (k : Nat) (hk : a.getD k .PENDING ≠ .PENDING) :
    b.getD k .PENDING = a.getD k .PENDING := by
  rcases h.2 k with he | ⟨hp, _, _⟩
  · exact he
  · exact absurd hp hk

theorem REvol_pending_back {ex : List Nat} {a b : List LoadStatus}
    (h : REvol ex a b) (k : Nat) (hk : b.getD k .PENDING = .PENDING) :
    a.getD k .PENDING = .PENDING := by
  rcases h.2 k with he | ⟨hp, _, _⟩
  · rw [← he]; exact hk
  · exact hp

theorem REvol_executing_keep {ex : List Nat} {a b : List LoadStatus}
    (h : REvol ex a b) (k : Nat) (hk : k ∈ ex) :
    b.getD k .PENDING = a.getD k .PENDING := by
  rcases h.2 k with he | ⟨_, _, hnex⟩
  · exact he
  · exact absurd hk hnex

/-! The sweep steps realise the evolution relations. -/

theorem spStep_spEvol (jobs : List JobSpec) (acc : List LoadStatus) (j : Nat) :
    SPEvol jobs acc (spStep jobs acc j) := by
  unfold spStep
  by_cases hcond : (decide (acc.getD j .PENDING = .PENDING) &&
      (jobs.getD j default).deps.any (fun d => decide (Bad (acc.getD d .PENDING)))) = true
  · rw [if_pos hcond]
    rcases Bool.and_eq_true_iff.mp hcond with ⟨hp, hany⟩
    have hp' : acc.getD j .PENDING = .PENDING := of_decide_eq_true hp
    rcases List.any_eq_true.mp hany with ⟨d, hd, hbadd⟩
    have hbad : Bad (acc.getD d .PENDING) := of_decide_eq_true hbadd
    by_cases hj : j < acc.length
    · refine ⟨List.length_set _ _ _, fun k => ?_⟩
      by_cases hkj : k = j
      · subst hkj
        refine Or.inr ⟨hp', getD_set_eq _ _ _ _ hj, d, hd, ?_⟩
        have hdj : d ≠ k := fun he => (Bad_not_pending hbad) (he ▸ hp')
        rw [getD_set_ne _ _ _ (fun he => hdj he.symm)]
        exact hbad
      · exact Or.inl (getD_set_ne _ _ _ (fun he => hkj he.symm))
    · rw [List.set_eq_of_length_le (Nat.le_of_not_lt hj)]
      exact SPEvol_refl _ _
  · rw [if_neg hcond]
    exact SPEvol_refl _ _

theorem foldl_spStep_spEvol (jobs : List JobSpec) :
    ∀ (l : List Nat) (acc : List LoadStatus),
      SPEvol jobs acc (l.foldl (spStep jobs) acc) := by
  intro l
  induction l with
  | nil => intro acc; exact SPEvol_refl _ _
  | cons x xs ih =>
      intro acc
      rw [List.foldl_cons]
      exact SPEvol_trans (spStep_spEvol jobs acc x) (ih _)

theorem statusPass_spEvol (jobs : List JobSpec) (st : List LoadStatus) :
    SPEvol jobs st (statusPass jobs st) :=
  foldl_spStep_spEvol jobs _ st

theorem iterate_statusPass_spEvol (jobs : List JobSpec) (n : Nat) :
    ∀ st, SPEvol jobs st ((statusPass jobs)^[n] st) := by
  induction n with
  | zero => intro st; exact SPEvol_refl _ _
  | succ k ih =>
      intro st
      rw [Function.iterate_succ_apply]
      exact SPEvol_trans (statusPass_spEvol jobs st) (ih _)

theorem statusPropagate_spEvol (jobs : List JobSpec) (st : List LoadStatus) :
    SPEvol jobs st (statusPropagate jobs st) :=
  iterate_statusPass_spEvol jobs _ st

theorem rpStep_rEvol (ex : List Nat) (acc : List LoadStatus) (j : Nat) :
    REvol ex acc (rpStep ex acc j) := by
  unfold rpStep
  by_cases hcond : (decide (acc.getD j .PENDING = .PENDING) && !(ex.contains j)) = true
  · rw [if_pos hcond]
    rcases Bool.and_eq_true_iff.mp hcond with ⟨hp, hnc⟩
    have hp' : acc.getD j .PENDING = .PENDING := of_decide_eq_true hp
    have hnex : j ∉ ex := by simpa using hnc
    by_cases hj : j < acc.length
    · refine ⟨List.length_set _ _ _, fun k => ?_⟩
      by_cases hkj : k = j
      · subst hkj
        exact Or.inr ⟨hp', getD_set_eq _ _ _ _ hj, hnex⟩
      · exact Or.inl (getD_set_ne _ _ _ (fun he => hkj he.symm))
    · rw [List.set_eq_of_length_le (Nat.le_of_not_lt hj)]
      exact REvol_refl _ _
  · rw [if_neg hcond]
    exact REvol_refl _ _

theorem foldl_rpStep_rEvol (ex : List Nat) :
    ∀ (l : List Nat) (acc : List LoadStatus),
      REvol ex acc (l.foldl (rpStep ex) acc) := by
  intro l
  induction l with
  | nil => intro acc; exact REvol_refl _ _
  | cons x xs ih =>
      intro acc
      rw [List.foldl_cons]
      exact REvol_trans (rpStep_rEvol ex acc x) (ih _)

/-- After the member sweep of a remove, a member inside the status range can
only still be PENDING if it is currently executing. -/
theorem foldl_rpStep_covers (ex : List Nat) :
    ∀ (task : List Nat) (acc : List LoadStatus) (j : Nat), j ∈ task → j < acc.length →
      (task.foldl (rpStep ex) acc).getD j .PENDING = .PENDING → j ∈ ex := by
  intro task
  induction task with
  | nil => intro acc j hj; cases hj
  | cons x xs ih =>
      intro acc j hj hlt hp
      rw [List.foldl_cons] at hp
      rcases List.mem_cons.mp hj with rfl | hj
      · by_cases hex : j ∈ ex
        · exact hex
        · exfalso
          have hmid : (rpStep ex acc j).getD j .PENDING = .PENDING :=
            REvol_pending_back (foldl_rpStep_rEvol ex xs _) j hp
          have hct : ex.contains j = false := by simpa using hex
          unfold rpStep at hmid
          by_cases hacc : acc.getD j .PENDING = .PENDING
          · rw [if_pos (by rw [hct, decide_eq_true hacc]; rfl),
              getD_set_eq _ _ _ _ hlt] at hmid
            cases hmid
          · rw [if_neg (fun hc =>
              hacc (of_decide_eq_true (Bool.and_eq_true_iff.mp hc).1))] at hmid
            exact hacc hmid
      · exact ih _ j hj (by rw [(rpStep_rEvol ex acc x).1]; exact hlt) hp

/-! Preservation of the pool invariants by every step. -/

theorem PInv_startJob (P : Pool) (j : Nat) (hI : PInv P) (hr : ReadyP P j) :
    PInv (startJob P j) := by
  obtain ⟨hjlt, hjp, hjex, hjdeps⟩ := hr
  refine ⟨hI.len_status, ?_, ?_, ?_, ?_, ?_, ?_, ?_⟩
  · intro k hk
    rcases List.mem_cons.mp hk with rfl | hk
    · exact hjlt
    · exact hI.exec_lt k hk
  · intro k hk
    rcases List.mem_cons.mp hk with rfl | hk
    · exact hjp
    · exact hI.exec_pending k hk
  · exact List.nodup_cons.mpr ⟨hjex, hI.exec_nodup⟩
  · intro k hk
    rcases List.mem_cons.mp hk with rfl | hk
    · exact List.mem_cons_self _ _
    · exact List.mem_cons_of_mem _ (hI.exec_started k hk)
  · intro k hk
    rcases List.mem_cons.mp hk with rfl | hk
    · exact hjdeps
    · exact hI.started_deps_ok k hk
  · intro k hk hp
    rcases List.mem_cons.mp hk with rfl | hk
    · exact List.mem_cons_self _ _
    · exact List.mem_cons_of_mem _ (hI.started_pending_exec k hk hp)
  · intro k hc hk
    rcases List.mem_cons.mp hk with rfl | hk
    · rw [show pstatusOf (startJob P k) k = pstatusOf P k from rfl, hjp] at hc
      cases hc
    · exact hI.canceled_not_started k hc hk

theorem PInv_finishJobOk (P : Pool) (j : Nat) (hI : PInv P) (hj : j ∈ P.executing) :
    PInv (finishJobOk P j) := by
  have hjlt : j < P.jobs.length := hI.exec_lt j hj
  have hjlt2 : j < P.status.length := by rw [hI.len_status]; exact hjlt
  have hjp : pstatusOf P j = .PENDING := hI.exec_pending j hj
  have hset : ∀ k, k ≠ j → pstatusOf (finishJobOk P j) k = pstatusOf P k :=
    fun k hk => getD_set_ne _ _ _ (fun he => hk he.symm)
  have hsetj : pstatusOf (finishJobOk P j) j = .OK := getD_set_eq _ _ _ _ hjlt2
  refine ⟨?_, ?_, ?_, ?_, ?_, ?_, ?_, ?_⟩
  · show (P.status.set j .OK).length = P.jobs.length
    rw [List.length_set]
    exact hI.len_status
  · intro k hk
    exact hI.exec_lt k (List.mem_of_mem_filter hk)
  · intro k hk
    have hkex := List.mem_of_mem_filter hk
    have hkj : k ≠ j := by
      have hh := List.of_mem_filter hk
      simpa using hh
    rw [hset k hkj]
    exact hI.exec_pending k hkex
  · exact hI.exec_nodup.filter _
  · intro k hk
    exact hI.exec_started k (List.mem_of_mem_filter hk)
  · intro k hk d hd
    have hdOK := hI.started_deps_ok k hk d hd
    have hdj : d ≠ j := fun he => by rw [he, hjp] at hdOK; cases hdOK
    rw [hset d hdj]
    exact hdOK
  · intro k hk hp
    have hkj : k ≠ j := by
      intro he
      rw [he, hsetj] at hp
      cases hp
    rw [hset k hkj] at hp
    exact List.mem_filter.mpr ⟨hI.started_pending_exec k hk hp, by simpa using hkj⟩
  · intro k hc
    have hkj : k ≠ j := by
      intro he
      rw [he, hsetj] at hc
      cases hc
    rw [hset k hkj] at hc
    exact hI.canceled_not_started k hc

theorem PInv_finishJobFailed (P : Pool) (j : Nat) (hI : PInv P) (hj : j ∈ P.executing) :
    PInv (finishJobFailed P j) := by
  have hjlt : j < P.jobs.length := hI.exec_lt j hj
  have hjlt2 : j < P.status.length := by rw [hI.len_status]; exact hjlt
  have hjp : pstatusOf P j = .PENDING := hI.exec_pending j hj
  have hsp : SPEvol P.jobs (P.status.set j .FAILED)
      (statusPropagate P.jobs (P.status.set j .FAILED)) := statusPropagate_spEvol _ _
  have hmidj : (P.status.set j .FAILED).getD j .PENDING = .FAILED :=
    getD_set_eq _ _ _ _ hjlt2
  have hmidne : ∀ k, k ≠ j → (P.status.set j .FAILED).getD k .PENDING = pstatusOf P k :=
    fun k hk => getD_set_ne _ _ _ (fun he => hk he.symm)
  have hfin : ∀ k, pstatusOf (finishJobFailed P j) k =
      (statusPropagate P.jobs (P.status.set j .FAILED)).getD k .PENDING := fun k => rfl
  have hdepsOK : ∀ k ∈ P.started, ∀ d ∈ pdepsOf P k,
      pstatusOf (finishJobFailed P j) d = .OK := by
    intro k hk d hd
    have hdOK := hI.started_deps_ok k hk d hd
    have hdj : d ≠ j := fun he => by rw [he, hjp] at hdOK; cases hdOK
    rw [hfin d, SPEvol_frozen hsp d (by rw [hmidne d hdj, hdOK]; intro hc; cases hc),
      hmidne d hdj]
    exact hdOK
  refine ⟨?_, ?_, ?_, ?_, ?_, ?_, ?_, ?_⟩
  · show (statusPropagate P.jobs (P.status.set j .FAILED)).length = P.jobs.length
    rw [hsp.1, List.length_set]
    exact hI.len_status
  · intro k hk
    exact hI.exec_lt k (List.mem_of_mem_filter hk)
  · intro k hk
    have hkex := List.mem_of_mem_filter hk
    have hkj : k ≠ j := by
      have hh := List.of_mem_filter hk
      simpa using hh
    have hkst := hI.exec_started k hkex
    rw [hfin k, SPEvol_pending_keep hsp k (fun d hd => by
        rw [← hfin d]; exact hdepsOK k hkst d hd), hmidne k hkj]
    exact hI.exec_pending k hkex
  · exact hI.exec_nodup.filter _
  · intro k hk
    exact hI.exec_started k (List.mem_of_mem_filter hk)
  · intro k hk d hd
    exact hdepsOK k hk d hd
  · intro k hk hp
    rw [hfin k] at hp
    have hmidp := SPEvol_pending_back hsp k hp
    have hkj : k ≠ j := by
      intro he
      rw [he, hmidj] at hmidp
      cases hmidp
    rw [hmidne k hkj] at hmidp
    exact List.mem_filter.mpr ⟨hI.started_pending_exec k hk hmidp, by simpa using hkj⟩
  · intro k hc hk
    rw [hfin k, SPEvol_pending_keep hsp k (fun d hd => by
        rw [← hfin d]; exact hdepsOK k hk d hd)] at hc
    have hkj : k ≠ j := by
      intro he
      rw [he, hmidj] at hc
      cases hc
    rw [hmidne k hkj] at hc
    exact hI.canceled_not_started k hc hk

theorem PInv_removeStep (P : Pool) (task : List Nat) (hI : PInv P) :
    PInv (removeStep P task) := by
  have hre : REvol P.executing P.status (task.foldl (rpStep P.executing) P.status) :=
    foldl_rpStep_rEvol _ task _
  have hsp : SPEvol P.jobs (task.foldl (rpStep P.executing) P.status)
      (statusPropagate P.jobs (task.foldl (rpStep P.executing) P.status)) :=
    statusPropagate_spEvol _ _
  have hfin : ∀ k, pstatusOf (removeStep P task) k =
      (statusPropagate P.jobs (task.foldl (rpStep P.executing) P.status)).getD k .PENDING :=
    fun k => rfl
  have hdepsOK : ∀ k ∈ P.started, ∀ d ∈ pdepsOf P k,
      pstatusOf (removeStep P task) d = .OK := by
    intro k hk d hd
    have hdOK := hI.started_deps_ok k hk d hd
    have hne : pstatusOf P d ≠ .PENDING := by rw [hdOK]; intro hc; cases hc
    rw [hfin d, SPEvol_frozen hsp d (by rw [REvol_frozen hre d hne]; exact hne),
      REvol_frozen hre d hne]
    exact hdOK
  refine ⟨?_, hI.exec_lt, ?_, hI.exec_nodup, hI.exec_started, ?_, ?_, ?_⟩
  · show (statusPropagate P.jobs (task.foldl (rpStep P.executing) P.status)).length =
      P.jobs.length
    rw [hsp.1, hre.1]
    exact hI.len_status
  · intro k hk
    have hkst := hI.exec_started k hk
    rw [hfin k, SPEvol_pending_keep hsp k (fun d hd => by
        rw [← hfin d]; exact hdepsOK k hkst d hd), REvol_executing_keep hre k hk]
    exact hI.exec_pending k hk
  · intro k hk d hd
    exact hdepsOK k hk d hd
  · intro k hk hp
    rw [hfin k] at hp
    have hmidp := SPEvol_pending_back hsp k hp
    have hpp := REvol_pending_back hre k hmidp
    exact hI.started_pending_exec k hk hpp
  · intro k hc hk
    rw [hfin k, SPEvol_pending_keep hsp k (fun d hd => by
        rw [← hfin d]; exact hdepsOK k hk d hd)] at hc
    rcases hre.2 k with he | ⟨hpp, _, hnex⟩
    · rw [he] at hc
      exact hI.canceled_not_started k hc hk
    · exact hnex (hI.started_pending_exec k hk hpp)

theorem PInv_setMaxThreads (P : Pool) (m : Nat) (hI : PInv P) :
    PInv (setMaxThreads P m) :=
  ⟨hI.len_status, hI.exec_lt, hI.exec_pending, hI.exec_nodup, hI.exec_started,
    hI.started_deps_ok, hI.started_pending_exec, hI.canceled_not_started⟩

theorem PInv_pstep {P Q : Pool} (h : PStep P Q) (hI : PInv P) : PInv Q := by
  cases h with
  | start j hr hlt => exact PInv_startJob P j hI hr
  | finishOk j hj => exact PInv_finishJobOk P j hI hj
  | finishFailed j hj => exact PInv_finishJobFailed P j hI hj
  | removeTask task => exact PInv_removeStep P task hI
  | setMax m => exact PInv_setMaxThreads P m hI

theorem PInv_reach {P Q : Pool} (h : Relation.ReflTransGen PStep P Q) (hI : PInv P) :
    PInv Q := by
  induction h with
  | refl => exact hI
  | tail _ hstep ih => exact PInv_pstep hstep ih

theorem PInv_initPool (jobs : List JobSpec) (m : Nat) : PInv (initPool jobs m) := by
  have hp : ∀ k, pstatusOf (initPool jobs m) k = .PENDING := fun k => getD_map_const _ _ _
  refine ⟨by show (jobs.map _).length = jobs.length; rw [List.length_map],
    ?_, ?_, List.nodup_nil, ?_, ?_, ?_, ?_⟩
  · intro k hk; cases hk
  · intro k hk; cases hk
  · intro k hk; cases hk
  · intro k hk; cases hk
  · intro k hk; cases hk
  · intro k hc
    rw [hp k] at hc
    cases hc

/-! Terminal statuses are frozen: a status changes only once, away from
PENDING, to one of OK, FAILED, CANCELED. -/

theorem pstep_terminal_frozen {P Q : Pool} (h : PStep P Q) (hI : PInv P) (k : Nat)
    (hk : pstatusOf P k ≠ .PENDING) : pstatusOf Q k = pstatusOf P k := by
  cases h with
  | start j hr hlt => rfl
  | finishOk j hj =>
      have hkj : k ≠ j := fun he => hk (by rw [he]; exact hI.exec_pending j hj)
      exact getD_set_ne _ _ _ (fun he => hkj he.symm)
  | finishFailed j hj =>
      have hkj : k ≠ j := fun he => hk (by rw [he]; exact hI.exec_pending j hj)
      have hmid : (P.status.set j .FAILED).getD k .PENDING = pstatusOf P k :=
        getD_set_ne _ _ _ (fun he => hkj he.symm)
      have hfr := SPEvol_frozen (statusPropagate_spEvol P.jobs (P.status.set j .FAILED)) k
        (by rw [hmid]; exact hk)
      exact hfr.trans hmid
  | removeTask task =>
      have hmid := REvol_frozen (foldl_rpStep_rEvol P.executing task P.status) k hk
      have hfr := SPEvol_frozen
        (statusPropagate_spEvol P.jobs (task.foldl (rpStep P.executing) P.status)) k
        (by rw [hmid]; exact hk)
      exact hfr.trans hmid
  | setMax m => rfl

theorem pstep_canceled_stays {P Q : Pool} (h : PStep P Q) (hI : PInv P) (k : Nat)
    (hc : pstatusOf P k = .CANCELED) : pstatusOf Q k = .CANCELED := by
  rw [pstep_terminal_frozen h hI k (by rw [hc]; intro hx; cases hx)]
  exact hc

/-! Remove never touches an executing member, and the only members still
PENDING after the synchronous sweep are the executing ones. -/

theorem removeStep_executing_status (P : Pool) (task : List Nat) (hI : PInv P) (j : Nat)
    (hj : j ∈ P.executing) : pstatusOf (removeStep P task) j = pstatusOf P j := by
  rw [(PInv_removeStep P task hI).exec_pending j hj, hI.exec_pending j hj]

theorem removeStep_status_len (P : Pool) (task : List Nat) :
    (removeStep P task).status.length = P.status.length := by
  show (statusPropagate P.jobs (task.foldl (rpStep P.executing) P.status)).length =
    P.status.length
  rw [(statusPropagate_spEvol _ _).1, (foldl_rpStep_rEvol _ task _).1]

theorem removeStep_pending_executing (P : Pool) (task : List Nat) (hI : PInv P) (j : Nat)
    (hj : j ∈ task) (hjlt : j < P.jobs.length)
    (hp : pstatusOf (removeStep P task) j = .PENDING) : j ∈ P.executing := by
  have hmidp : (task.foldl (rpStep P.executing) P.status).getD j .PENDING = .PENDING :=
    SPEvol_pending_back (statusPropagate_spEvol _ _) j hp
  exact foldl_rpStep_covers P.executing task P.status j hj
    (by rw [hI.len_status]; exact hjlt) hmidp

/-! Replaying a command list yields genuine (disciplined) steps. -/

theorem applyCmd_dstep {P Q : Pool} {c : PoolCmd} (h : applyCmd P c = some Q) :
    DStep P Q := by
  cases c with
  | start j =>
      have h2 : (if ReadyP P j ∧ P.executing.length < P.maxThreads
          then some (startJob P j) else none) = some Q := h
      by_cases hg : ReadyP P j ∧ P.executing.length < P.maxThreads
      · rw [if_pos hg] at h2
        cases h2
        exact DStep.start P j hg.1 hg.2
      · rw [if_neg hg] at h2
        cases h2
  | finOk j =>
      have h2 : (if j ∈ P.executing then some (finishJobOk P j) else none) = some Q := h
      by_cases hg : j ∈ P.executing
      · rw [if_pos hg] at h2
        cases h2
        exact DStep.finishOk P j hg
      · rw [if_neg hg] at h2
        cases h2
  | finFail j =>
      have h2 : (if j ∈ P.executing then some (finishJobFailed P j) else none) = some Q := h
      by_cases hg : j ∈ P.executing
      · rw [if_pos hg] at h2
        cases h2
        exact DStep.finishFailed P j hg
      · rw [if_neg hg] at h2
        cases h2
  | rm task =>
      have h2 : some (removeStep P task) = some Q := h
      cases h2
      exact DStep.removeTask P task
  | setMax m =>
      have h2 : (if P.executing.length ≤ m then some (setMaxThreads P m) else none) = some Q := h
      by_cases hg : P.executing.length ≤ m
      · rw [if_pos hg] at h2
        cases h2
        exact DStep.setMax P m hg
      · rw [if_neg hg] at h2
        cases h2

theorem dstep_pstep {P Q : Pool} (h : DStep P Q) : PStep P Q := by
  cases h with
  | start j hr hlt => exact PStep.start P j hr hlt
  | finishOk j hj => exact PStep.finishOk P j hj
  | finishFailed j hj => exact PStep.finishFailed P j hj
  | removeTask task => exact PStep.removeTask P task
  | setMax m hm => exact PStep.setMax P m

theorem runCmds_dreach : ∀ (cs : List PoolCmd) (P Q : Pool),
    runCmds P cs = some Q → Relation.ReflTransGen DStep P Q := by
  intro cs
  induction cs with
  | nil =>
      intro P Q h
      cases h
      exact Relation.ReflTransGen.refl
  | cons c cs ih =>
      intro P Q h
      unfold runCmds at h
      cases hap : applyCmd P c
      · rw [hap] at h
        cases h
      · rename_i P1
        rw [hap] at h
        exact Relation.ReflTransGen.head (applyCmd_dstep hap) (ih P1 Q h)

theorem runCmds_preach {cs : List PoolCmd} {P Q : Pool}
    (h : runCmds P cs = some Q) : Relation.ReflTransGen PStep P Q :=
  Relation.ReflTransGen.mono (fun _ _ hd => dstep_pstep hd) (runCmds_dreach cs P Q h)

/-! The disciplined concurrency bound. -/

theorem dstep_exec_le {P Q : Pool} (h : DStep P Q)
    (hle : P.executing.length ≤ P.maxThreads) :
    Q.executing.length ≤ Q.maxThreads := by
  cases h with
  | start j hr hlt =>
      show (j :: P.executing).length ≤ P.maxThreads
      rw [List.length_cons]
      exact hlt
  | finishOk j hj =>
      exact le_trans (List.length_filter_le _ _) hle
  | finishFailed j hj =>
      exact le_trans (List.length_filter_le _ _) hle
  | removeTask task => exact hle
  | setMax m hm => exact hm

theorem dreach_exec_le {P Q : Pool} (h : Relation.ReflTransGen DStep P Q)
    (h0 : P.executing.length ≤ P.maxThreads) :
    Q.executing.length ≤ Q.maxThreads := by
  induction h with
  | refl => exact h0
  | tail _ hstep ih => exact dstep_exec_le hstep ih

/-! Claim theorems for the pool model. -/

/-- C9: a job whose user function is currently executing still reports status
PENDING, there is no observable RUNNING state (LoadStatus has exactly
PENDING, OK, FAILED, CANCELED), and a status changes away from PENDING only
once, at the single terminal transition: in every pool state reachable from
a fresh pool every executing job has status PENDING, and once a job's status
is not PENDING no step changes it. Concretely, after the blocker of the
CancelExecutingTask scenario starts, it is executing and reports PENDING. -/
theorem c9_status_visibility (jobs : List JobSpec) (m : Nat) (P Q : Pool)
    (hreach : Relation.ReflTransGen PStep (initPool jobs m) P) :
    (∀ j ∈ P.executing, pstatusOf P j = .PENDING) ∧
    (PStep P Q → ∀ k, pstatusOf P k ≠ .PENDING → pstatusOf Q k = pstatusOf P k) ∧
    (∀ s : LoadStatus, s = .PENDING ∨ s = .OK ∨ s = .FAILED ∨ s = .CANCELED) ∧
    (runCmds c6init [.start 0] = some (startJob c6init 0) ∧
      0 ∈ (startJob c6init 0).executing ∧ pstatusOf (startJob c6init 0) 0 = .PENDING) := by
  have hI : PInv P := PInv_reach hreach (PInv_initPool jobs m)
  refine ⟨hI.exec_pending, fun hstep k hk => pstep_terminal_frozen hstep hI k hk, ?_,
    by decide⟩
  intro s
  cases s
  · exact Or.inl rfl
  · exact Or.inr (Or.inl rfl)
  · exact Or.inr (Or.inr (Or.inl rfl))
  · exact Or.inr (Or.inr (Or.inr rfl))

/-- Witness for c9_status_visibility: the CancelExecutingTask pool one start
step in, where the blocker is executing and still reports PENDING. -/
theorem c9_status_visibility_witness :
    pstatusOf (startJob c6init 0) 0 = .PENDING :=
  (c9_status_visibility c6jobs 16 (startJob c6init 0) c6init
    (Relation.ReflTransGen.single (PStep.start c6init 0 (by decide) (by decide)))).1
    0 (by decide)

/-- C7: a job's user function is invoked strictly after all its dependencies
reached OK, and a canceled job's function is never invoked: in every
reachable pool state every started job had, and keeps, all dependencies OK;
a CANCELED job was never started; the step that first puts a job into the
started log requires every dependency OK in the pre-state; and a ready job
by definition has all dependencies OK. In the CancelExecutingTask trace the
two canceled members never start while the other task's member runs and
ends OK. -/
theorem c7_deps_ok_at_start (jobs : List JobSpec) (m : Nat) (P : Pool)
    (hreach : Relation.ReflTransGen PStep (initPool jobs m) P) :
    (∀ j ∈ P.started, ∀ d ∈ pdepsOf P j, pstatusOf P d = .OK) ∧
    (∀ j, pstatusOf P j = .CANCELED → j ∉ P.started) ∧
    (∀ Q j, PStep P Q → j ∉ P.started → j ∈ Q.started →
      ∀ d ∈ pdepsOf P j, pstatusOf P d = .OK) ∧
    (∀ j, ReadyP P j → ∀ d ∈ pdepsOf P j, pstatusOf P d = .OK) ∧
    (runCmds c6init c6cmds = some c6final ∧ pstatusOf c6final 1 = .CANCELED ∧
      pstatusOf c6final 2 = .CANCELED ∧ 1 ∉ c6final.started ∧ 2 ∉ c6final.started ∧
      3 ∈ c6final.started ∧ pstatusOf c6final 3 = .OK) := by
  have hI : PInv P := PInv_reach hreach (PInv_initPool jobs m)
  refine ⟨hI.started_deps_ok, hI.canceled_not_started, ?_, ?_, by decide⟩
  · intro Q j hstep hnot hmem
    cases hstep with
    | start k hr hlt =>
        rcases List.mem_cons.mp hmem with rfl | hmem2
        · exact hr.2.2.2
        · exact absurd hmem2 hnot
    | finishOk k hk => exact absurd hmem hnot
    | finishFailed k hk => exact absurd hmem hnot
    | removeTask task => exact absurd hmem hnot
    | setMax k => exact absurd hmem hnot
  · intro j hr
    exact hr.2.2.2

/-- Witness for c7_deps_ok_at_start: the fully executed CancelExecutingTask
pool, in which every started job has all dependencies OK. -/
theorem c7_deps_ok_at_start_witness :
    pstatusOf c6final 0 = .OK :=
  (c7_deps_ok_at_start c6jobs 16 c6final
    (@runCmds_preach c6cmds c6init c6final (by decide))).1
    3 (by decide) 0 (by decide)

/-- C6: a job already executing when remove is observed is never canceled
mid-run: the synchronous remove sweep leaves every executing job's status
unchanged; the job then finishes with its natural terminal status (OK when
its function returns normally); remove can only return after every executing
member finishes, because a member of the graph still PENDING after the sweep
is necessarily executing; dependents remove already marked CANCELED stay
CANCELED under every further step; and in the CancelExecutingTask
interleaving the blocker ends OK, both removed dependents stay CANCELED, and
the member of the other task depending on the same blocker still ends OK. -/
theorem c6_cancel_executing (jobs : List JobSpec) (m : Nat) (P : Pool)
    (hreach : Relation.ReflTransGen PStep (initPool jobs m) P) :
    (∀ task j, j ∈ P.executing → pstatusOf (removeStep P task) j = pstatusOf P j) ∧
    (∀ task j, j ∈ P.executing → pstatusOf (finishJobOk (removeStep P task) j) j = .OK) ∧
    (∀ task j, j ∈ task → j < P.jobs.length →
      pstatusOf (removeStep P task) j = .PENDING → j ∈ P.executing) ∧
    (∀ Q k, PStep P Q → pstatusOf P k = .CANCELED → pstatusOf Q k = .CANCELED) ∧
    (runCmds c6init c6cmds = some c6final ∧
      Relation.ReflTransGen PStep c6init c6final ∧
      c6final.status = [.OK, .CANCELED, .CANCELED, .OK] ∧
      RemoveReturned c6final [0, 1, 2] ∧
      runCmds c6init [.start 0, .rm [0, 1, 2]] =
        some (removeStep (startJob c6init 0) [0, 1, 2]) ∧
      (removeStep (startJob c6init 0) [0, 1, 2]).status =
        [.PENDING, .CANCELED, .CANCELED, .PENDING] ∧
      0 ∈ (removeStep (startJob c6init 0) [0, 1, 2]).executing ∧
      ¬ RemoveReturned (removeStep (startJob c6init 0) [0, 1, 2]) [0, 1, 2]) := by
  have hI : PInv P := PInv_reach hreach (PInv_initPool jobs m)
  refine ⟨fun task j hj => removeStep_executing_status P task hI j hj, ?_,
    fun task j hj hlt hp => removeStep_pending_executing P task hI j hj hlt hp,
    fun Q k hstep hc => pstep_canceled_stays hstep hI k hc,
    by decide, @runCmds_preach c6cmds c6init c6final (by decide),
    by decide, by decide, by decide, by decide, by decide, by decide⟩
  intro task j hj
  have hjlt : j < (removeStep P task).status.length := by
    rw [removeStep_status_len, hI.len_status]
    exact hI.exec_lt j hj
  exact getD_set_eq _ _ _ _ hjlt

/-- Witness for c6_cancel_executing: the concrete CancelExecutingTask
interleaving replayed from the fresh pool. -/
theorem c6_cancel_executing_witness :
    runCmds c6init c6cmds = some c6final ∧
    Relation.ReflTransGen PStep c6init c6final ∧
    c6final.status = [.OK, .CANCELED, .CANCELED, .OK] ∧
    RemoveReturned c6final [0, 1, 2] ∧
    runCmds c6init [.start 0, .rm [0, 1, 2]] =
      some (removeStep (startJob c6init 0) [0, 1, 2]) ∧
    (removeStep (startJob c6init 0) [0, 1, 2]).status =
      [.PENDING, .CANCELED, .CANCELED, .PENDING] ∧
    0 ∈ (removeStep (startJob c6init 0) [0, 1, 2]).executing ∧
    ¬ RemoveReturned (removeStep (startJob c6init 0) [0, 1, 2]) [0, 1, 2] :=
  (c6_cancel_executing c6jobs 16 c6init Relation.ReflTransGen.refl).2.2.2.2

/-- C8 refutation of the unconditional bound: max_threads shrinking is lazy
(running jobs are not interrupted), so lowering the limit while two jobs run
yields a reachable pool state whose executing count exceeds max_threads. -/
theorem c8_counterexample :
    Relation.ReflTransGen PStep c8cexInit c8cexFinal ∧
    c8cexFinal.maxThreads < c8cexFinal.executing.length := by
  refine ⟨?_, by decide⟩
  refine Relation.ReflTransGen.head (PStep.start c8cexInit 0 (by decide) (by decide)) ?_
  refine Relation.ReflTransGen.head (PStep.start _ 1 (by decide) (by decide)) ?_
  exact Relation.ReflTransGen.single (PStep.setMax _ 1)

/-- C8 (amended): when setMaxThreads is only invoked with a target that is
not below the current executing count - which is how the SetMaxThreads test
orchestrates its calls, at drain points - every reachable state keeps the
executing count at most max_threads; and the test's orchestration reaches
each target exactly (the observed count equals both the target and the
current max_threads at every observation point) and eventually drains with
every job OK. -/
theorem c8_concurrency_amended (jobs : List JobSpec) (m : Nat) (P : Pool)
    (hreach : Relation.ReflTransGen DStep (initPool jobs m) P) :
    P.executing.length ≤ P.maxThreads ∧
    (∀ i, i < smtValues.length →
      runCmds smtInit (startsPrefix i) = some (smtPrefixPool i) ∧
      (smtPrefixPool i).executing.length = smtValues.getD i 0 ∧
      (smtPrefixPool i).maxThreads = smtValues.getD i 0) ∧
    (runCmds smtInit (allPhases smtValues 0) = some smtFinal ∧
      smtFinal.executing = [] ∧ smtFinal.status = List.replicate 67 LoadStatus.OK) ∧
    Relation.ReflTransGen DStep smtInit smtFinal := by
  refine ⟨dreach_exec_le hreach (Nat.zero_le _), by decide, by decide,
    runCmds_dreach (allPhases smtValues 0) smtInit smtFinal (by decide)⟩

/-- Witness for c8_concurrency_amended: the fresh SetMaxThreads pool, with
no job running, satisfies the bound, and the orchestration drains. -/
theorem c8_concurrency_amended_witness :
    smtInit.executing.length ≤ smtInit.maxThreads ∧ smtFinal.executing = [] :=
  ⟨(c8_concurrency_amended smtJobs 1 smtInit Relation.ReflTransGen.refl).1,
   (c8_concurrency_amended smtJobs 1 smtInit Relation.ReflTransGen.refl).2.2.1.2.1⟩

end AsyncLoader
